import Mathlib

/-!
Verification of the symbol-extraction and cross-file resolution engine of a
SourcePawn editor extension against its natural-language specification.

The development shallowly embeds the relevant TypeScript source:

* the legacy provider (`CompletionRepository`, `FileCompletions`, the
  `Completion` class hierarchy, `read_unscanned_imports`,
  `get_included_files` / `get_all_completions`, `get_completions`,
  `provideSignatureHelp`);
* the `readDefine` extractor (quote-aware comment scanning over a line
  stream);
* the items-based provider (`getLastFunc`,
  `getLastEnumStructNameOrMethodMap`, `getMethodItems`,
  `getCompletionListFromPosition`).

Strings scanned character by character are embedded as `List Char`; the
JavaScript `Map` objects are embedded as association lists whose `set`
replaces in place (preserving insertion order) and whose `get` returns the
first binding.  Functions whose source lives outside the provided files are
reconstructed from the specification and carry a doc comment starting with
`Modelled from the spec:`.
-/

namespace SP

/-- The `vscode.CompletionItemKind` constructors used by the engine. -/
inductive CompletionItemKind where
  | Function
  | Method
  | Property
  | Variable
  | Class
  | Struct
  | Enum
  | EnumMember
  | File
  | Folder
  | User
  deriving DecidableEq, Repr

/-- `vscode.Position`: zero-based line and column. -/
structure Position where
  line : Nat
  character : Nat
  deriving DecidableEq, Repr

/-- `a.isBeforeOrEqual b` for positions: lexicographic on (line, character). -/
def Position.isBeforeOrEqual (a b : Position) : Bool :=
  a.line < b.line || (a.line == b.line && a.character ≤ b.character)

/-- `vscode.Range`.  The source field called `end` is a Lean keyword, so it
is named `stop` here. -/
structure Range where
  start : Position
  stop : Position
  deriving DecidableEq, Repr

/-- `Range.contains(position)`: inclusive containment between the two ends. -/
def Range.contains (r : Range) (p : Position) : Bool :=
  r.start.isBeforeOrEqual p && p.isBeforeOrEqual r.stop

/-- The character class of the regexes `/[a-zA-Z0-9_]/` used by the backward
scans. -/
def wordChar (c : Char) : Bool :=
  ('a' ≤ c && c ≤ 'z') || ('A' ≤ c && c ≤ 'Z') || ('0' ≤ c && c ≤ '9') || c == '_'

/-! ## Legacy provider: data model (`Completion` classes, `FileCompletions`) -/

/-- `FunctionParam`: one entry of a callable's parameter list. -/
structure FunctionParam where
  label : String
  documentation : String
  deriving DecidableEq, Repr

/-- The fields of the `vscode.CompletionItem` literals the legacy provider
builds (`label`, optional `insertText`/`filterText`, `kind`, optional
`detail`). -/
structure CompletionItem where
  label : String
  insertText : Option String
  filterText : Option String
  kind : CompletionItemKind
  detail : Option String
  deriving DecidableEq, Repr

/-- `vscode.SignatureInformation` as constructed by `get_signature`. -/
structure SignatureInformation where
  label : String
  documentation : String
  parameters : List FunctionParam
  deriving DecidableEq, Repr

/-- The closed hierarchy of classes implementing the `Completion` interface.
`VariableCompletion` is abbreviated `var` because `variable` is a Lean
keyword; `EnumMemberCompletion`'s object reference to its
`EnumCompletion` is embedded as that completion's (name, file) pair. -/
inductive Completion where
  | function (name detail description : String) (params : List FunctionParam)
  | method (method_map name detail description : String) (params : List FunctionParam)
  | define (name : String)
  | var (name file : String)
  | enum (name file : String)
  | enumMember (name file enumName enumFile : String)
  deriving DecidableEq, Repr

/-- The `name` field shared by every `Completion` class. -/
def Completion.name : Completion → String
  | .function n _ _ _ => n
  | .method _ n _ _ _ => n
  | .define n => n
  | .var n _ => n
  | .enum n _ => n
  | .enumMember n _ _ _ => n

/-- The `kind` field fixed by each `Completion` class (`DefineCompletion`
reports `CompletionItemKind.Variable`, as in the source). -/
def Completion.kind : Completion → CompletionItemKind
  | .function _ _ _ _ => .Function
  | .method _ _ _ _ _ => .Method
  | .define _ => .Variable
  | .var _ _ => .Variable
  | .enum _ _ => .Enum
  | .enumMember _ _ _ _ => .EnumMember

/-- `to_completion_item(file)` of each `Completion` class.  A
`VariableCompletion` whose `file` differs from the requesting document is
rendered with an empty label; every other class ignores the argument. -/
def Completion.to_completion_item (c : Completion) (file : String) : CompletionItem :=
  match c with
  | .function n _ d _ => ⟨n, none, none, .Function, some d⟩
  | .method mm n _ d _ => ⟨mm ++ "." ++ n, some n, some n, .Method, some d⟩
  | .define n => ⟨n, none, none, .Variable, none⟩
  | .var n vfile =>
      if file == vfile then ⟨n, none, none, .Variable, none⟩
      else ⟨"", none, none, .Variable, none⟩
  | .enum n _ => ⟨n, none, none, .Enum, none⟩
  | .enumMember n _ _ _ => ⟨n, none, none, .EnumMember, none⟩

/-- `get_signature()` of each `Completion` class; the classes without a
signature return `undefined`, embedded as `none`. -/
def Completion.get_signature : Completion → Option SignatureInformation
  | .function _ detail d params => some ⟨detail, d, params⟩
  | .method _ _ detail d params => some ⟨detail, d, params⟩
  | .define _ => none
  | .var _ _ => none
  | .enum _ _ => none
  | .enumMember _ _ _ _ => none

/-- An include directive resolved to a file identity. -/
structure Include where
  uri : String
  isBuiltIn : Bool
  deriving DecidableEq, Repr

/-- `FileCompletions`: the per-file table.  `completions` embeds the JS
`Map<string, Completion>` as an insertion-ordered association list. -/
structure FileCompletions where
  completions : List (String × Completion)
  includes : List Include
  uri : String
  deriving DecidableEq, Repr

/-- `FileCompletions.get_completions`: the values of the completion map in
insertion order. -/
def FileCompletions.get_completions (fc : FileCompletions) : List Completion :=
  fc.completions.map Prod.snd

/-- The repository map `CompletionRepository.completions`
(`Map<string, FileCompletions>`), embedded as an insertion-ordered
association list. -/
abbrev Repo := List (String × FileCompletions)

/-- `Map.get`: the first binding of the key, if any. -/
def repoGet (repo : Repo) (k : String) : Option FileCompletions :=
  match repo.find? (fun e => e.fst == k) with
  | some e => some e.snd
  | none => none

/-- `Map.set`: replace the binding in place if the key is present (JS `Map`
keeps the original insertion position), otherwise append. -/
def repoSet (repo : Repo) (k : String) (v : FileCompletions) : Repo :=
  match repo with
  | [] => [(k, v)]
  | e :: rest => if e.fst == k then (k, v) :: rest else e :: repoSet rest k v

/-! ## Legacy provider: `read_unscanned_imports` (claim C1)

`read_unscanned_imports` iterates over a table's includes, and whenever an
include's uri is not yet a key of the repository map it parses that file and
recurses into the parsed table **before** inserting it into the map.  The
parser `parse_file` lives in `smParser` (not among the provided sources), so
the file system is abstracted: `fs uri` is the `FileCompletions` table that
parsing the file with identity `uri` produces. -/

/-- One fuel unit is spent on every call; `none` means the fuel ran out, so
`(∀ fuel, … = none)` states that the source recursion never terminates.
Mirrors the body of `read_unscanned_imports`: for each include not present
in the repository, parse it, recurse into the parsed table, then insert. -/
def readUnscannedGo (fs : String → FileCompletions) :
    Nat → Repo → List Include → Option Repo
  | 0, _, _ => none
  | _ + 1, repo, [] => some repo
  | fuel + 1, repo, inc :: rest =>
      match repoGet repo inc.uri with
      | some _ => readUnscannedGo fs fuel repo rest
      | none =>
          match readUnscannedGo fs fuel repo (fs inc.uri).includes with
          | none => none
          | some repo' => readUnscannedGo fs fuel (repoSet repo' inc.uri (fs inc.uri)) rest

/-- `read_unscanned_imports(completions)` with explicit repository state. -/
def read_unscanned_imports (fs : String → FileCompletions) (fuel : Nat)
    (repo : Repo) (completions : FileCompletions) : Option Repo :=
  readUnscannedGo fs fuel repo completions.includes

/-- A two-file world in which `file://a` includes `file://b` and vice versa,
with no items; `handle_new_document` starts `read_unscanned_imports` before
inserting the opened document, so the repository starts empty. -/
def cyclicFs : String → FileCompletions := fun uri =>
  if uri == "file://a" then ⟨[], [⟨"file://b", false⟩], "file://a"⟩
  else if uri == "file://b" then ⟨[], [⟨"file://a", false⟩], "file://b"⟩
  else ⟨[], [], uri⟩

/-- On the cyclic two-file world, scanning either file's single include from
an empty repository exhausts every fuel bound: each level finds the other
file absent from the map (insertion only happens after the recursive call
returns) and recurses. -/
theorem readUnscannedGo_cyclic (fuel : Nat) :
    readUnscannedGo cyclicFs fuel [] [⟨"file://a", false⟩] = none ∧
    readUnscannedGo cyclicFs fuel [] [⟨"file://b", false⟩] = none := by
  induction fuel with
  | zero => exact ⟨rfl, rfl⟩
  | succ f ih =>
      constructor
      · have h : readUnscannedGo cyclicFs (f + 1) [] [⟨"file://a", false⟩]
            = match readUnscannedGo cyclicFs f [] [⟨"file://b", false⟩] with
              | none => none
              | some repo' =>
                  readUnscannedGo cyclicFs f
                    (repoSet repo' "file://a" (cyclicFs "file://a")) [] := rfl
        rw [h, ih.2]
      · have h : readUnscannedGo cyclicFs (f + 1) [] [⟨"file://b", false⟩]
            = match readUnscannedGo cyclicFs f [] [⟨"file://a", false⟩] with
              | none => none
              | some repo' =>
                  readUnscannedGo cyclicFs f
                    (repoSet repo' "file://b" (cyclicFs "file://b")) [] := rfl
        rw [h, ih.1]

/-- Claim C1 (refuted — code bug): invoking the recursive include-indexing
operation `read_unscanned_imports` on file A of a cyclic pair (A includes B,
B includes A, neither yet indexed, as when `handle_new_document` opens A)
does NOT terminate.  The repository map that plays the role of the visited
set is only updated *after* the recursive call returns, so the guard never
fires on the cycle: for every fuel bound the recursion runs out of fuel. -/
theorem read_unscanned_imports_cycle_diverges (fuel : Nat) :
    read_unscanned_imports cyclicFs fuel [] (cyclicFs "file://a") = none :=
  (readUnscannedGo_cyclic fuel).2

/-! ## Legacy provider: `get_included_files` / `get_all_completions` (claim C2)

`get_included_files(completions, files)` performs a depth-first walk of the
include graph stored in the repository, inserting each include uri into the
visited set `files` *before* recursing into its stored table.  The nesting
depth of the recursion is bounded by the number of repository keys outside
the visited set, so the embedding carries that bound as fuel;
`goIncl_isSome` proves the fuel is always sufficient. -/

/-- Number of repository keys (with multiplicity) outside `files`: the bound
on the nesting depth of `get_included_files`. -/
def missingKeys (repo : Repo) (files : List String) : Nat :=
  (repo.map Prod.fst).countP (fun k => !files.contains k)

/-- The recursion of `get_included_files`: iterate over the pending includes;
an unseen uri is appended to the visited list and, when the repository holds
a table for it, that table's includes are walked before the remaining
pending ones.  Fuel is spent only when nesting into a stored table; `none`
means the fuel ran out. -/
def goIncl (repo : Repo) : Nat → List Include → List String → Option (List String)
  | _, [], files => some files
  | fuel, inc :: rest, files =>
      if files.contains inc.uri then goIncl repo fuel rest files
      else
        match repoGet repo inc.uri with
        | none => goIncl repo fuel rest (files ++ [inc.uri])
        | some fc =>
            match fuel with
            | 0 => none
            | f + 1 =>
                match goIncl repo f fc.includes (files ++ [inc.uri]) with
                | none => none
                | some files' => goIncl repo (f + 1) rest files'
termination_by fuel todo _ => (fuel, todo.length)

/-- `get_included_files(completions, files)`.  `repo.length` fuel is always
sufficient (`goIncl_isSome`), so the `getD` default is never taken. -/
def get_included_files (repo : Repo) (completions : FileCompletions)
    (files : List String) : List String :=
  (goIncl repo repo.length completions.includes files).getD files

/-- `get_file_completions(file)`: the stored table's items, or nothing for an
identity the repository does not hold. -/
def get_file_completions (repo : Repo) (file : String) : List Completion :=
  match repoGet repo file with
  | some fc => fc.get_completions
  | none => []

/-- `get_all_completions(file)`: collect the uris reachable through
`get_included_files`, add the file itself (a JS `Set.add`: a no-op when
already present, otherwise appended last), and concatenate each uri's
items. -/
def get_all_completions (repo : Repo) (file : String) : List Completion :=
  let includesSet : List String :=
    match repoGet repo file with
    | some fc => get_included_files repo fc []
    | none => []
  let uris := if includesSet.contains file then includesSet else includesSet ++ [file]
  (uris.map (get_file_completions repo)).foldl (fun a b => a ++ b) []

/-- One include edge of the repository graph: the table stored for `u` lists
an include whose uri is `v`. -/
def inclEdge (repo : Repo) (u v : String) : Prop :=
  ∃ fc, repoGet repo u = some fc ∧ v ∈ fc.includes.map Include.uri

/-- `transitiveIncludes(uri)`: the identities reachable from `uri` along one
or more include edges. -/
def transitiveIncludes (repo : Repo) (file x : String) : Prop :=
  Relation.TransGen (inclEdge repo) file x

/-! Unfolding equations for `goIncl`, one per branch. -/

theorem goIncl_eq_nil (repo : Repo) (fuel : Nat) (files : List String) :
    goIncl repo fuel [] files = some files := by
  rw [goIncl]

theorem goIncl_eq_mem (repo : Repo) (fuel : Nat) (inc : Include) (rest : List Include)
    (files : List String) (h : files.contains inc.uri = true) :
    goIncl repo fuel (inc :: rest) files = goIncl repo fuel rest files := by
  rw [goIncl, if_pos h]

theorem goIncl_eq_unstored (repo : Repo) (fuel : Nat) (inc : Include) (rest : List Include)
    (files : List String) (h1 : ¬files.contains inc.uri = true)
    (h2 : repoGet repo inc.uri = none) :
    goIncl repo fuel (inc :: rest) files = goIncl repo fuel rest (files ++ [inc.uri]) := by
  rw [goIncl, if_neg h1, h2]

theorem goIncl_eq_zero (repo : Repo) (inc : Include) (rest : List Include)
    (files : List String) (fc : FileCompletions) (h1 : ¬files.contains inc.uri = true)
    (h2 : repoGet repo inc.uri = some fc) :
    goIncl repo 0 (inc :: rest) files = none := by
  rw [goIncl, if_neg h1, h2]

theorem goIncl_eq_succ (repo : Repo) (f : Nat) (inc : Include) (rest : List Include)
    (files : List String) (fc : FileCompletions) (h1 : ¬files.contains inc.uri = true)
    (h2 : repoGet repo inc.uri = some fc) :
    goIncl repo (f + 1) (inc :: rest) files
      = match goIncl repo f fc.includes (files ++ [inc.uri]) with
        | none => none
        | some files' => goIncl repo (f + 1) rest files' := by
  rw [goIncl, if_neg h1, h2]

/-- A visited list only ever grows (as a prefix) along a successful walk. -/
theorem goIncl_extend (repo : Repo) (fuel : Nat) (todo : List Include) (files : List String) :
    ∀ files', goIncl repo fuel todo files = some files' → files <+: files' := by
  induction fuel, todo, files using goIncl.induct repo with
  | case1 fuel files =>
      intro files' h
      rw [goIncl_eq_nil] at h
      cases h
      exact List.prefix_refl _
  | case2 fuel inc rest files hmem ih =>
      intro files' h
      rw [goIncl_eq_mem repo fuel inc rest files hmem] at h
      exact ih files' h
  | case3 fuel inc rest files hmem hget ih =>
      intro files' h
      rw [goIncl_eq_unstored repo fuel inc rest files hmem hget] at h
      exact (List.prefix_append files [inc.uri]).trans (ih files' h)
  | case4 inc rest files hmem fc hget =>
      intro files' h
      rw [goIncl_eq_zero repo inc rest files fc hmem hget] at h
      cases h
  | case5 inc rest files hmem fc hget f hInner ihInner =>
      intro files' h
      rw [goIncl_eq_succ repo f inc rest files fc hmem hget, hInner] at h
      cases h
  | case6 inc rest files hmem fc hget f mid hInner ihInner ihOuter =>
      intro files' h
      rw [goIncl_eq_succ repo f inc rest files fc hmem hget, hInner] at h
      exact ((List.prefix_append files [inc.uri]).trans (ihInner mid hInner)).trans
        (ihOuter files' h)

/-- Membership in a grown visited list. -/
theorem mem_of_goIncl_extend {repo : Repo} {fuel : Nat} {todo : List Include}
    {files files' : List String} (h : goIncl repo fuel todo files = some files')
    {x : String} (hx : x ∈ files) : x ∈ files' :=
  (goIncl_extend repo fuel todo files files' h).subset hx

/-- A successful walk keeps the visited list duplicate-free. -/
theorem goIncl_nodup (repo : Repo) (fuel : Nat) (todo : List Include) (files : List String) :
    ∀ files', goIncl repo fuel todo files = some files' → files.Nodup → files'.Nodup := by
  induction fuel, todo, files using goIncl.induct repo with
  | case1 fuel files =>
      intro files' h hnd
      rw [goIncl_eq_nil] at h
      cases h
      exact hnd
  | case2 fuel inc rest files hmem ih =>
      intro files' h hnd
      rw [goIncl_eq_mem repo fuel inc rest files hmem] at h
      exact ih files' h hnd
  | case3 fuel inc rest files hmem hget ih =>
      intro files' h hnd
      rw [goIncl_eq_unstored repo fuel inc rest files hmem hget] at h
      refine ih files' h ?_
      simp only [List.nodup_append, List.nodup_cons, List.not_mem_nil, not_false_iff,
        List.nodup_nil, and_true, true_and]
      refine ⟨hnd, fun a ha hau => ?_⟩
      rw [List.mem_singleton] at hau
      subst hau
      exact hmem (List.elem_iff.mpr ha)
  | case4 inc rest files hmem fc hget =>
      intro files' h
      rw [goIncl_eq_zero repo inc rest files fc hmem hget] at h
      cases h
  | case5 inc rest files hmem fc hget f hInner ihInner =>
      intro files' h
      rw [goIncl_eq_succ repo f inc rest files fc hmem hget, hInner] at h
      cases h
  | case6 inc rest files hmem fc hget f mid hInner ihInner ihOuter =>
      intro files' h hnd
      rw [goIncl_eq_succ repo f inc rest files fc hmem hget, hInner] at h
      refine ihOuter files' h (ihInner mid hInner ?_)
      simp only [List.nodup_append, List.nodup_cons, List.not_mem_nil, not_false_iff,
        List.nodup_nil, and_true, true_and]
      refine ⟨hnd, fun a ha hau => ?_⟩
      rw [List.mem_singleton] at hau
      subst hau
      exact hmem (List.elem_iff.mpr ha)

/-- Boolean `contains` over an appended list restricted to its left part. -/
theorem contains_false_of_append {files ext : List String} {k : String}
    (h : (files ++ ext).contains k = false) : files.contains k = false := by
  simp only [List.contains, List.elem_eq_mem, decide_eq_false_iff_not, List.mem_append] at h ⊢
  exact fun hk => h (Or.inl hk)

/-- Strict monotonicity of `countP` when the smaller predicate implies the
larger and some member separates them. -/
theorem countP_lt_countP {α : Type} (l : List α) (p q : α → Bool)
    (hmono : ∀ a ∈ l, p a = true → q a = true) (a : α) (ha : a ∈ l)
    (hq : q a = true) (hp : p a = false) : l.countP p < l.countP q := by
  induction l with
  | nil => cases ha
  | cons b t ih =>
      rw [List.countP_cons, List.countP_cons]
      have hmono' : ∀ x ∈ t, p x = true → q x = true :=
        fun x hx => hmono x (List.mem_cons_of_mem b hx)
      have hle : t.countP p ≤ t.countP q := List.countP_mono_left hmono'
      rcases List.mem_cons.mp ha with hb | hat
      · subst hb
        rw [hp, hq]
        simp only [Bool.false_eq_true, if_false, if_true]
        omega
      · have hlt : t.countP p < t.countP q := ih hmono' hat
        have hpq : (if p b = true then 1 else 0) ≤ (if q b = true then 1 else 0) := by
          cases hpb : p b with
          | false => simp
          | true => rw [hmono b (List.mem_cons_self b t) hpb]
        omega

/-- Growing the visited list cannot increase the number of missing keys. -/
theorem missingKeys_append_le (repo : Repo) (files ext : List String) :
    missingKeys repo (files ++ ext) ≤ missingKeys repo files := by
  refine List.countP_mono_left (fun k _ h => ?_)
  rw [Bool.not_eq_true'] at h ⊢
  exact contains_false_of_append h

/-- A stored key's uri is among the repository keys. -/
theorem repoGet_some_mem {repo : Repo} {k : String} {fc : FileCompletions}
    (h : repoGet repo k = some fc) : k ∈ repo.map Prod.fst := by
  rw [repoGet] at h
  cases hf : repo.find? (fun e => e.fst == k) with
  | none => rw [hf] at h; cases h
  | some e =>
      have he : e ∈ repo := List.mem_of_find?_eq_some hf
      have hk := List.find?_some hf
      have hek : e.fst = k := by simpa using hk
      subst hek
      exact List.mem_map_of_mem Prod.fst he

/-- Visiting a stored, unvisited key strictly decreases the missing count. -/
theorem missingKeys_concat_lt (repo : Repo) (files : List String) (u : String)
    (hmem : u ∈ repo.map Prod.fst) (hc : ¬files.contains u = true) :
    missingKeys repo (files ++ [u]) < missingKeys repo files := by
  refine countP_lt_countP (repo.map Prod.fst) _ _ ?_ u hmem ?_ ?_
  · intro k _ h
    rw [Bool.not_eq_true'] at h ⊢
    exact contains_false_of_append h
  · simp only [Bool.not_eq_true'] at hc ⊢
    simp only [Bool.not_eq_true] at hc
    exact hc
  · simp

/-- The missing count is bounded by the repository size. -/
theorem missingKeys_le_length (repo : Repo) (files : List String) :
    missingKeys repo files ≤ repo.length := by
  calc missingKeys repo files ≤ (repo.map Prod.fst).length := List.countP_le_length _
    _ = repo.length := List.length_map repo Prod.fst

/-- Prefix growth of visited lists cannot increase the missing count. -/
theorem missingKeys_le_of_prefix (repo : Repo) {files files' : List String}
    (h : files <+: files') : missingKeys repo files' ≤ missingKeys repo files := by
  obtain ⟨t, ht⟩ := h
  subst ht
  exact missingKeys_append_le repo files t

/-- Every pending include's uri ends up in the result of a successful walk. -/
theorem goIncl_todo_mem (repo : Repo) (fuel : Nat) (todo : List Include) (files : List String) :
    ∀ files', goIncl repo fuel todo files = some files' → ∀ inc ∈ todo, inc.uri ∈ files' := by
  induction fuel, todo, files using goIncl.induct repo with
  | case1 fuel files =>
      intro files' h inc hinc
      cases hinc
  | case2 fuel inc rest files hmem ih =>
      intro files' h inc' hinc'
      rw [goIncl_eq_mem repo fuel inc rest files hmem] at h
      rcases List.mem_cons.mp hinc' with he | ht
      · subst he
        exact mem_of_goIncl_extend h (List.elem_iff.mp hmem)
      · exact ih files' h inc' ht
  | case3 fuel inc rest files hmem hget ih =>
      intro files' h inc' hinc'
      rw [goIncl_eq_unstored repo fuel inc rest files hmem hget] at h
      rcases List.mem_cons.mp hinc' with he | ht
      · subst he
        exact mem_of_goIncl_extend h (List.mem_append_right files (List.mem_singleton.mpr rfl))
      · exact ih files' h inc' ht
  | case4 inc rest files hmem fc hget =>
      intro files' h
      rw [goIncl_eq_zero repo inc rest files fc hmem hget] at h
      cases h
  | case5 inc rest files hmem fc hget f hInner ihInner =>
      intro files' h
      rw [goIncl_eq_succ repo f inc rest files fc hmem hget, hInner] at h
      cases h
  | case6 inc rest files hmem fc hget f mid hInner ihInner ihOuter =>
      intro files' h inc' hinc'
      rw [goIncl_eq_succ repo f inc rest files fc hmem hget, hInner] at h
      rcases List.mem_cons.mp hinc' with he | ht
      · subst he
        exact mem_of_goIncl_extend h (mem_of_goIncl_extend hInner
          (List.mem_append_right files (List.mem_singleton.mpr rfl)))
      · exact ihOuter files' h inc' ht

/-- Soundness: every uri in the result was already visited or is reachable
from some pending include along stored include edges. -/
theorem goIncl_sound (repo : Repo) (fuel : Nat) (todo : List Include) (files : List String) :
    ∀ files', goIncl repo fuel todo files = some files' → ∀ x ∈ files',
      x ∈ files ∨ ∃ inc ∈ todo, Relation.ReflTransGen (inclEdge repo) inc.uri x := by
  induction fuel, todo, files using goIncl.induct repo with
  | case1 fuel files =>
      intro files' h x hx
      rw [goIncl_eq_nil] at h
      cases h
      exact Or.inl hx
  | case2 fuel inc rest files hmem ih =>
      intro files' h x hx
      rw [goIncl_eq_mem repo fuel inc rest files hmem] at h
      rcases ih files' h x hx with hf | ⟨inc', hinc', hr⟩
      · exact Or.inl hf
      · exact Or.inr ⟨inc', List.mem_cons_of_mem inc hinc', hr⟩
  | case3 fuel inc rest files hmem hget ih =>
      intro files' h x hx
      rw [goIncl_eq_unstored repo fuel inc rest files hmem hget] at h
      rcases ih files' h x hx with hf | ⟨inc', hinc', hr⟩
      · rcases List.mem_append.mp hf with hf' | hu
        · exact Or.inl hf'
        · refine Or.inr ⟨inc, List.mem_cons_self inc rest, ?_⟩
          rw [List.mem_singleton] at hu
          subst hu
          exact Relation.ReflTransGen.refl
      · exact Or.inr ⟨inc', List.mem_cons_of_mem inc hinc', hr⟩
  | case4 inc rest files hmem fc hget =>
      intro files' h
      rw [goIncl_eq_zero repo inc rest files fc hmem hget] at h
      cases h
  | case5 inc rest files hmem fc hget f hInner ihInner =>
      intro files' h
      rw [goIncl_eq_succ repo f inc rest files fc hmem hget, hInner] at h
      cases h
  | case6 inc rest files hmem fc hget f mid hInner ihInner ihOuter =>
      intro files' h x hx
      rw [goIncl_eq_succ repo f inc rest files fc hmem hget, hInner] at h
      rcases ihOuter files' h x hx with hmid | ⟨inc', hinc', hr⟩
      · rcases ihInner mid hInner x hmid with hf | ⟨j, hj, hr⟩
        · rcases List.mem_append.mp hf with hf' | hu
          · exact Or.inl hf'
          · refine Or.inr ⟨inc, List.mem_cons_self inc rest, ?_⟩
            rw [List.mem_singleton] at hu
            subst hu
            exact Relation.ReflTransGen.refl
        · exact Or.inr ⟨inc, List.mem_cons_self inc rest,
            Relation.ReflTransGen.head ⟨fc, hget, List.mem_map_of_mem Include.uri hj⟩ hr⟩
      · exact Or.inr ⟨inc', List.mem_cons_of_mem inc hinc', hr⟩

/-- Closure: when a successful walk records a uri that the repository stores
a table for, all of that table's include uris are recorded too. -/
theorem goIncl_closed (repo : Repo) (fuel : Nat) (todo : List Include) (files : List String) :
    ∀ files', goIncl repo fuel todo files = some files' → ∀ x ∈ files', x ∉ files →
      ∀ fcx, repoGet repo x = some fcx → ∀ j ∈ fcx.includes, j.uri ∈ files' := by
  induction fuel, todo, files using goIncl.induct repo with
  | case1 fuel files =>
      intro files' h x hx hnot fcx hgx j hj
      rw [goIncl_eq_nil] at h
      cases h
      exact absurd hx hnot
  | case2 fuel inc rest files hmem ih =>
      intro files' h x hx hnot fcx hgx j hj
      rw [goIncl_eq_mem repo fuel inc rest files hmem] at h
      exact ih files' h x hx hnot fcx hgx j hj
  | case3 fuel inc rest files hmem hget ih =>
      intro files' h x hx hnot fcx hgx j hj
      rw [goIncl_eq_unstored repo fuel inc rest files hmem hget] at h
      by_cases hxu : x = inc.uri
      · subst hxu
        rw [hget] at hgx
        cases hgx
      · refine ih files' h x hx ?_ fcx hgx j hj
        intro hmem2
        rcases List.mem_append.mp hmem2 with h1 | h2
        · exact hnot h1
        · exact hxu (List.mem_singleton.mp h2)
  | case4 inc rest files hmem fc hget =>
      intro files' h
      rw [goIncl_eq_zero repo inc rest files fc hmem hget] at h
      cases h
  | case5 inc rest files hmem fc hget f hInner ihInner =>
      intro files' h
      rw [goIncl_eq_succ repo f inc rest files fc hmem hget, hInner] at h
      cases h
  | case6 inc rest files hmem fc hget f mid hInner ihInner ihOuter =>
      intro files' h x hx hnot fcx hgx j hj
      rw [goIncl_eq_succ repo f inc rest files fc hmem hget, hInner] at h
      by_cases hxmid : x ∈ mid
      · by_cases hxu : x = inc.uri
        · subst hxu
          rw [hget] at hgx
          injection hgx with hfc
          subst hfc
          exact mem_of_goIncl_extend h
            (goIncl_todo_mem repo f fc.includes (files ++ [inc.uri]) mid hInner j hj)
        · refine mem_of_goIncl_extend h (ihInner mid hInner x hxmid ?_ fcx hgx j hj)
          intro hmem2
          rcases List.mem_append.mp hmem2 with h1 | h2
          · exact hnot h1
          · exact hxu (List.mem_singleton.mp h2)
      · exact ihOuter files' h x hx hxmid fcx hgx j hj

/-- Fuel sufficiency: with at least `missingKeys repo files` fuel the walk
never runs out — this is why the source recursion terminates. -/
theorem goIncl_isSome (repo : Repo) (fuel : Nat) (todo : List Include) (files : List String) :
    missingKeys repo files ≤ fuel → (goIncl repo fuel todo files).isSome = true := by
  induction fuel, todo, files using goIncl.induct repo with
  | case1 fuel files =>
      intro _
      rw [goIncl_eq_nil]
      rfl
  | case2 fuel inc rest files hmem ih =>
      intro hle
      rw [goIncl_eq_mem repo fuel inc rest files hmem]
      exact ih hle
  | case3 fuel inc rest files hmem hget ih =>
      intro hle
      rw [goIncl_eq_unstored repo fuel inc rest files hmem hget]
      exact ih ((missingKeys_append_le repo files [inc.uri]).trans hle)
  | case4 inc rest files hmem fc hget =>
      intro hle
      have hbu : (!files.contains inc.uri) = true := by
        simp only [Bool.not_eq_true'] at hmem ⊢
        simp only [Bool.not_eq_true] at hmem
        exact hmem
      have h1 : 0 < missingKeys repo files :=
        List.countP_pos_iff.mpr ⟨inc.uri, repoGet_some_mem hget, hbu⟩
      omega
  | case5 inc rest files hmem fc hget f hInner ihInner =>
      intro hle
      have hlt := missingKeys_concat_lt repo files inc.uri (repoGet_some_mem hget) hmem
      have hf : missingKeys repo (files ++ [inc.uri]) ≤ f := by omega
      have hsome := ihInner hf
      rw [hInner] at hsome
      simp at hsome
  | case6 inc rest files hmem fc hget f mid hInner ihInner ihOuter =>
      intro hle
      rw [goIncl_eq_succ repo f inc rest files fc hmem hget, hInner]
      have hpre := goIncl_extend repo f fc.includes (files ++ [inc.uri]) mid hInner
      have h1 : missingKeys repo mid ≤ missingKeys repo (files ++ [inc.uri]) :=
        missingKeys_le_of_prefix repo hpre
      have hlt := missingKeys_concat_lt repo files inc.uri (repoGet_some_mem hget) hmem
      exact ihOuter (by omega)

/-- A list closed under stored include edges absorbs reflexive-transitive
reachability. -/
theorem mem_of_reflTransGen {repo : Repo} {F : List String}
    (hclosed : ∀ v w, v ∈ F → inclEdge repo v w → w ∈ F) :
    ∀ {v x : String}, Relation.ReflTransGen (inclEdge repo) v x → v ∈ F → x ∈ F := by
  intro v x h
  induction h with
  | refl => exact id
  | tail hab hbc ih => exact fun hv => hclosed _ _ (ih hv) hbc

/-- With a stored start file, the walk from an empty visited list succeeds
and collects exactly the uris reachable from the file through one or more
include edges, without duplicates. -/
theorem goIncl_top (repo : Repo) (file : String) (fc : FileCompletions)
    (hget : repoGet repo file = some fc) :
    ∃ F, goIncl repo repo.length fc.includes [] = some F ∧ F.Nodup ∧
      ∀ x, x ∈ F ↔ transitiveIncludes repo file x := by
  have hsome := goIncl_isSome repo repo.length fc.includes [] (missingKeys_le_length repo [])
  cases hF : goIncl repo repo.length fc.includes [] with
  | none =>
      rw [hF] at hsome
      simp at hsome
  | some F =>
      refine ⟨F, rfl, goIncl_nodup repo repo.length fc.includes [] F hF List.nodup_nil, ?_⟩
      have hclosed : ∀ v w, v ∈ F → inclEdge repo v w → w ∈ F := by
        intro v w hv ⟨fcv, hgv, hw⟩
        rcases List.mem_map.mp hw with ⟨j, hj, hju⟩
        subst hju
        exact goIncl_closed repo repo.length fc.includes [] F hF v hv
          (List.not_mem_nil v) fcv hgv j hj
      intro x
      constructor
      · intro hx
        rcases goIncl_sound repo repo.length fc.includes [] F hF x hx with hnil | ⟨inc, hinc, hr⟩
        · cases hnil
        · exact Relation.TransGen.head'
            ⟨fc, hget, List.mem_map_of_mem Include.uri hinc⟩ hr
      · intro hx
        rcases Relation.TransGen.head'_iff.mp hx with ⟨v, ⟨fc', hg', hv⟩, hr⟩
        rw [hget] at hg'
        injection hg' with hfc
        subst hfc
        rcases List.mem_map.mp hv with ⟨inc, hinc, hiu⟩
        subst hiu
        exact mem_of_reflTransGen hclosed hr
          (goIncl_todo_mem repo repo.length fc.includes [] F hF inc hinc)

/-- Claim C2 (confirmed): for every repository state and file identity,
`get_all_completions` returns the concatenation of the item tables of a
duplicate-free uri list whose members are exactly
`{uri} ∪ transitiveIncludes(uri)` — each reachable file contributes its
items exactly once, also on cyclic or diamond-shaped include graphs. -/
theorem get_all_completions_visible_set (repo : Repo) (file : String) :
    ∃ uris : List String,
      get_all_completions repo file
        = (uris.map (get_file_completions repo)).foldl (fun a b => a ++ b) [] ∧
      uris.Nodup ∧
      ∀ x, x ∈ uris ↔ (x = file ∨ transitiveIncludes repo file x) := by
  cases hget : repoGet repo file with
  | none =>
      refine ⟨[file], ?_, List.nodup_singleton file, ?_⟩
      · simp only [get_all_completions, hget]
        rfl
      · intro x
        simp only [List.mem_singleton]
        constructor
        · exact fun h => Or.inl h
        · rintro (h | h)
          · exact h
          · rcases Relation.TransGen.head'_iff.mp h with ⟨v, ⟨fc', hg', _⟩, _⟩
            rw [hget] at hg'
            cases hg'
  | some fc =>
      obtain ⟨F, hF, hnd, hmemF⟩ := goIncl_top repo file fc hget
      have hgif : get_included_files repo fc [] = F := by
        rw [get_included_files, hF]
        rfl
      by_cases hfl : F.contains file = true
      · refine ⟨F, ?_, hnd, ?_⟩
        · simp only [get_all_completions, hget, hgif, hfl, if_true]
        · intro x
          rw [hmemF x]
          constructor
          · exact fun h => Or.inr h
          · rintro (h | h)
            · subst h
              exact (hmemF x).mp (List.elem_iff.mp hfl)
            · exact h
      · refine ⟨F ++ [file], ?_, ?_, ?_⟩
        · simp only [get_all_completions, hget, hgif]
          rw [if_neg hfl]
        · simp only [List.nodup_append, List.nodup_singleton, true_and, and_true]
          refine ⟨hnd, fun a ha hau => ?_⟩
          rw [List.mem_singleton] at hau
          subst hau
          exact hfl (List.elem_iff.mpr ha)
        · intro x
          rw [List.mem_append, List.mem_singleton, hmemF x]
          constructor
          · rintro (h | h)
            · exact Or.inr h
            · exact Or.inl h
          · rintro (h | h)
            · exact Or.inr h
            · exact Or.inl h

/-! ## The `readDefine` extractor (claims C3, C4)

`readDefine(parser, match, line)` scans the rest of the line character by
character, tracking open single/double quotes and block comments, pulling
further lines from `parser.lines` while a block comment stays open, and
registers a Define item unless the line stream runs out inside the comment.
The loop advances an index `i` but only ever reads the suffix `line.slice(i)`
of the current line, so the embedding scans the remaining suffix directly.
Scanned text is embedded as `List Char`. -/

/-- JS `String.prototype.trimEnd` on a character list. -/
def trimEnd (l : List Char) : List Char :=
  (l.reverse.dropWhile Char.isWhitespace).reverse

/-- Index just past the last occurrence of `*/` in `l`: the greedy regex
`/(.*)\*\//` matches up to the final `*/` of the line, so `match[0].length`
is this index and `match[1].length` is this index minus two. -/
def lastStarSlashEnd : List Char → Option Nat
  | [] => none
  | c :: rest =>
      match lastStarSlashEnd rest with
      | some n => some (n + 1)
      | none => if c = '*' ∧ rest.head? = some '/' then some 2 else none

/-- Outcome of the `readDefine` scanning loop: `item` holds the
`(value, description)` pair when the loop exited (an item is constructed),
and is `none` when the line stream ran out inside a block comment (the
extractor returns without an item); `lines` is what remains of the stream
and `shifts` counts the `parser.lines.shift()` calls (each also increments
`parser.lineNb`). -/
structure ReadDefineResult where
  item : Option (List Char × List Char)
  lines : List (List Char)
  shifts : Nat
  deriving DecidableEq, Repr

/-- The `while (i < line.length && iter < 10000)` loop of `readDefine`.
`fuel` is `10000 - iter`; each iteration spends one unit, and the loop also
exits (constructing an item) when the current-line suffix is empty.  The
branches mirror the source in order: double quote toggle, single quote
toggle, then outside a block comment the two-character lookaheads for `/*`
(enter comment) and `//` (the description becomes the rest of the line and
the loop breaks) — both suppressed while either quote is open — with
fallthrough appending the character to the value; inside a block comment
the greedy `*/` search either closes the comment or consumes the suffix
into the description and shifts the next line, returning with no item when
the stream is exhausted. -/
def readDefineGo : Nat → List Char → List (List Char) → Bool → Bool → Bool →
    List Char → List Char → ReadDefineResult
  | 0, _, lines, _, _, _, value, desc => ⟨some (value, desc), lines, 0⟩
  | _ + 1, [], lines, _, _, _, value, desc => ⟨some (value, desc), lines, 0⟩
  | fuel + 1, c :: cs, lines, openD, openS, bc, value, desc =>
      if c = '"' ∧ openS = false ∧ bc = false then
        readDefineGo fuel cs lines (!openD) openS bc (value ++ ['"']) desc
      else if c = '\'' ∧ openD = false ∧ bc = false then
        readDefineGo fuel cs lines openD (!openS) bc (value ++ ['\'']) desc
      else if bc = false then
        match cs with
        | c2 :: cs2 =>
            if c = '/' ∧ c2 = '*' ∧ openS = false ∧ openD = false then
              readDefineGo fuel cs2 lines openD openS true value desc
            else if c = '/' ∧ c2 = '/' ∧ openS = false ∧ openD = false then
              ⟨some (value, cs2), lines, 0⟩
            else
              readDefineGo fuel cs lines openD openS bc (value ++ [c]) desc
        | [] => readDefineGo fuel cs lines openD openS bc (value ++ [c]) desc
      else
        match lastStarSlashEnd (c :: cs) with
        | some n =>
            readDefineGo fuel ((c :: cs).drop n) lines openD openS false value
              (desc ++ trimEnd ((c :: cs).take (n - 2)))
        | none =>
            match lines with
            | [] => ⟨none, [], 1⟩
            | l :: ls =>
                let r := readDefineGo fuel l ls openD openS bc value
                  (desc ++ trimEnd (c :: cs))
                ⟨r.item, r.lines, r.shifts + 1⟩

/-- The parser state `readDefine` reads and mutates: the remaining line
stream, the current line number and the file's item map.  The embedded item
keeps the fields the claims are about (value and description); the range
fields are built by helpers outside the provided sources from positions
only. -/
structure DefParser where
  lines : List (List Char)
  lineNb : Nat
  fileItems : List (String × (List Char × List Char))
  deriving DecidableEq, Repr

/-- `Map.set` for the file-item map (replace in place or append). -/
def itemsSet (m : List (String × (List Char × List Char))) (k : String)
    (v : List Char × List Char) : List (String × (List Char × List Char)) :=
  match m with
  | [] => [(k, v)]
  | e :: rest => if e.fst == k then (k, v) :: rest else e :: itemsSet rest k v

/-- `readDefine(parser, match, line)`: `matchLen` is `match[0].length` (the
scan starts there) and `name` is `match[1]`.  When the loop exits normally
the Define item is registered in `fileItems`; when the stream ran out inside
a block comment the function returns having consumed the stream but
registering nothing. -/
def readDefine (p : DefParser) (name : String) (matchLen : Nat)
    (line : List Char) : DefParser :=
  let r := readDefineGo 10000 (line.drop matchLen) p.lines false false false [] []
  match r.item with
  | some (value, desc) =>
      { lines := r.lines, lineNb := p.lineNb + r.shifts,
        fileItems := itemsSet p.fileItems name (value, desc) }
  | none => { lines := r.lines, lineNb := p.lineNb + r.shifts, fileItems := p.fileItems }

/-- A double quote outside a single quote and block comment toggles the
double-quote state and is appended to the value. -/
theorem readDefineGo_step_dquote (fuel : Nat) (cs : List Char) (lines : List (List Char))
    (openD : Bool) (value desc : List Char) :
    readDefineGo (fuel + 1) ('"' :: cs) lines openD false false value desc
      = readDefineGo fuel cs lines (!openD) false false (value ++ ['"']) desc := by
  simp [readDefineGo]

/-- Inside an open double quote, any character other than `"` is appended to
the value verbatim: both comment lookaheads are suppressed. -/
theorem readDefineGo_step_inDQuote (fuel : Nat) (c : Char) (cs : List Char)
    (lines : List (List Char)) (value desc : List Char) (hc : c ≠ '"') :
    readDefineGo (fuel + 1) (c :: cs) lines true false false value desc
      = readDefineGo fuel cs lines true false false (value ++ [c]) desc := by
  cases cs with
  | nil => simp [readDefineGo, hc]
  | cons c2 cs2 => simp [readDefineGo, hc]

/-- Outside quotes and comments, a character that is neither a quote nor `/`
is appended to the value. -/
theorem readDefineGo_step_plain (fuel : Nat) (c : Char) (cs : List Char)
    (lines : List (List Char)) (value desc : List Char)
    (h1 : c ≠ '"') (h2 : c ≠ '\'') (h3 : c ≠ '/') :
    readDefineGo (fuel + 1) (c :: cs) lines false false false value desc
      = readDefineGo fuel cs lines false false false (value ++ [c]) desc := by
  cases cs with
  | nil => simp [readDefineGo, h1, h2, h3]
  | cons c2 cs2 => simp [readDefineGo, h1, h2, h3]

/-- `//` outside quotes and comments breaks the loop: the rest of the line
becomes the description, replacing anything accumulated so far. -/
theorem readDefineGo_step_lineComment (fuel : Nat) (cs2 : List Char)
    (lines : List (List Char)) (value desc : List Char) :
    readDefineGo (fuel + 1) ('/' :: '/' :: cs2) lines false false false value desc
      = ⟨some (value, cs2), lines, 0⟩ := by
  simp [readDefineGo]

/-- `/*` outside quotes and comments enters block-comment mode, skipping the
two characters. -/
theorem readDefineGo_step_blockOpen (fuel : Nat) (cs2 : List Char)
    (lines : List (List Char)) (value desc : List Char) :
    readDefineGo (fuel + 1) ('/' :: '*' :: cs2) lines false false false value desc
      = readDefineGo fuel cs2 lines false false true value desc := by
  simp [readDefineGo]

/-- While a double quote is open, a `"`-free segment is copied verbatim into
the value. -/
theorem readDefineGo_quoted :
    ∀ (s : List Char), '"' ∉ s →
      ∀ (fuel : Nat) (tail : List Char) (lines : List (List Char)) (value desc : List Char),
        readDefineGo (fuel + s.length) (s ++ tail) lines true false false value desc
          = readDefineGo fuel tail lines true false false (value ++ s) desc := by
  intro s
  induction s with
  | nil =>
      intro _ fuel tail lines value desc
      simp
  | cons c cs ih =>
      intro hs fuel tail lines value desc
      have hc : c ≠ '"' := fun h => hs (h ▸ List.mem_cons_self c cs)
      have hcs : '"' ∉ cs := fun h => hs (List.mem_cons_of_mem c h)
      have h1 : fuel + (c :: cs).length = (fuel + cs.length) + 1 := by
        simp only [List.length_cons]
        omega
      rw [h1]
      have h2 : (c :: cs) ++ tail = c :: (cs ++ tail) := rfl
      rw [h2, readDefineGo_step_inDQuote (fuel + cs.length) c (cs ++ tail) lines value desc hc,
        ih hcs fuel tail lines (value ++ [c]) desc]
      simp

/-- Claim C3 (confirmed): a `//` occurring inside a string literal of a
define's value does not act as a line-comment terminator.  For a define line
`#define X "<s>" // <d>` with no further `"` inside `s` (and short enough
for the 10000-iteration cap documented by the spec), the registered value is
the full quoted literal plus the space before the real comment, and the
description is the text after that `//`. -/
theorem readDefine_string_literal (p : DefParser) (s d : List Char)
    (hs : '"' ∉ s) (hlen : s.length ≤ 9000) :
    readDefine p "X" 10
        ("#define X ".toList ++ '"' :: (s ++ ('"' :: ' ' :: '/' :: '/' :: ' ' :: d)))
      = { lines := p.lines, lineNb := p.lineNb,
          fileItems := itemsSet p.fileItems "X" ('"' :: (s ++ ['"', ' ']), ' ' :: d) } := by
  have hdrop :
      ("#define X ".toList ++ '"' :: (s ++ ('"' :: ' ' :: '/' :: '/' :: ' ' :: d))).drop 10
        = '"' :: (s ++ ('"' :: ' ' :: '/' :: '/' :: ' ' :: d)) := by
    rw [show (10 : Nat) = ("#define X ".toList).length from rfl, List.drop_left]
  have hgo : readDefineGo 10000
      (("#define X ".toList ++ '"' :: (s ++ ('"' :: ' ' :: '/' :: '/' :: ' ' :: d))).drop 10)
      p.lines false false false [] []
      = ⟨some ('"' :: (s ++ ['"', ' ']), ' ' :: d), p.lines, 0⟩ := by
    rw [hdrop]
    rw [show (10000 : Nat) = 9999 + 1 from rfl,
      readDefineGo_step_dquote 9999 (s ++ ('"' :: ' ' :: '/' :: '/' :: ' ' :: d)) p.lines
        false [] []]
    simp only [Bool.not_false]
    have h9999 : (9999 : Nat) = (9999 - s.length) + s.length := by omega
    rw [h9999, readDefineGo_quoted s hs (9999 - s.length)
      ('"' :: ' ' :: '/' :: '/' :: ' ' :: d) p.lines ([] ++ ['"']) []]
    have ha : 9999 - s.length = (9998 - s.length) + 1 := by omega
    rw [ha, readDefineGo_step_dquote (9998 - s.length) (' ' :: '/' :: '/' :: ' ' :: d) p.lines
      true (([] ++ ['"']) ++ s) []]
    simp only [Bool.not_true]
    have hb : 9998 - s.length = (9997 - s.length) + 1 := by omega
    rw [hb, readDefineGo_step_plain (9997 - s.length) ' ' ('/' :: '/' :: ' ' :: d) p.lines
      ((([] ++ ['"']) ++ s) ++ ['"']) [] (by decide) (by decide) (by decide)]
    have hc : 9997 - s.length = (9996 - s.length) + 1 := by omega
    rw [hc, readDefineGo_step_lineComment (9996 - s.length) (' ' :: d) p.lines
      (((([] ++ ['"']) ++ s) ++ ['"']) ++ [' ']) []]
    simp
  simp only [readDefine, hgo]
  simp

/-- Concrete instance of claim C3 at the spec's own example: the value of
`#define X "http://a" // doc` keeps the full literal `"http://a"`. -/
theorem readDefine_string_literal_witness :
    '"' ∉ "http://a".toList ∧ "http://a".toList.length ≤ 9000 ∧
    readDefine ⟨[], 0, []⟩ "X" 10
        ("#define X ".toList ++ '"' :: ("http://a".toList ++ ('"' :: ' ' :: '/' :: '/' :: ' ' :: "doc".toList)))
      = ⟨[], 0, [("X", ('"' :: ("http://a".toList ++ ['"', ' ']), ' ' :: "doc".toList))]⟩ :=
  ⟨by decide, by decide,
    readDefine_string_literal ⟨[], 0, []⟩ "http://a".toList "doc".toList
      (by decide) (by decide)⟩

/-- Inside a block comment with no `*/` on the current suffix, each pending
nonempty terminator-free line is consumed in one iteration; exhausting the
stream aborts the scan with no item, having consumed every line. -/
theorem readDefineGo_bc_exhaust :
    ∀ (rest : List (List Char)) (fuel : Nat) (c : Char) (cur : List Char)
      (openD openS : Bool) (value desc : List Char),
      (∀ l ∈ rest, l ≠ [] ∧ lastStarSlashEnd l = none) →
      lastStarSlashEnd (c :: cur) = none → rest.length < fuel →
      readDefineGo fuel (c :: cur) rest openD openS true value desc
        = ⟨none, [], rest.length + 1⟩ := by
  intro rest
  induction rest with
  | nil =>
      intro fuel c cur openD openS value desc h1 h2 hlen
      cases fuel with
      | zero => omega
      | succ f =>
          simp [readDefineGo, h2]
  | cons l ls ih =>
      intro fuel c cur openD openS value desc h1 h2 hlen
      cases fuel with
      | zero => simp at hlen
      | succ f =>
          obtain ⟨hne, hssl⟩ := h1 l (List.mem_cons_self l ls)
          cases hl : l with
          | nil => exact absurd hl hne
          | cons c' cur' =>
              have hrec := ih f c' cur'
                openD openS value (desc ++ trimEnd (c :: cur))
                (fun x hx => h1 x (List.mem_cons_of_mem l hx))
                (hl ▸ hssl)
                (by simp at hlen; omega)
              simp [readDefineGo, h2, hl, hrec]

/-- Claim C4 counterexample: on `#define X /* abc` whose single remaining
line is EMPTY — so the block comment is never terminated before the line
stream runs out — the loop exits at the empty line and a Define item IS
constructed and registered, contradicting the claim that no partial item is
ever emitted in that situation. -/
theorem readDefine_unterminated_counterexample :
    (∀ l ∈ ([[]] : List (List Char)), lastStarSlashEnd l = none) ∧
    lastStarSlashEnd " abc".toList = none ∧
    (readDefine ⟨[[]], 0, []⟩ "X" 10 "#define X /* abc".toList).fileItems
      = [("X", ([], " abc".toList))] :=
  ⟨by decide, by decide, by decide⟩

/-- Claim C4 amended (proved): when the trailing block comment is never
terminated, every remaining line is nonempty, and the stream is shorter
than the iteration cap, the extractor consumes the whole stream and returns
WITHOUT registering any item.  (An empty remaining line instead ends the
loop early and registers an item — see the counterexample.) -/
theorem readDefine_unterminated_comment (p : DefParser)
    (h1 : ∀ l ∈ p.lines, l ≠ [] ∧ lastStarSlashEnd l = none)
    (h2 : p.lines.length ≤ 9000) :
    readDefine p "X" 10 "#define X /* abc".toList
      = { lines := [], lineNb := p.lineNb + (p.lines.length + 1),
          fileItems := p.fileItems } := by
  have hgo : readDefineGo 10000 ("#define X /* abc".toList.drop 10) p.lines
      false false false [] []
      = ⟨none, [], p.lines.length + 1⟩ := by
    have hdrop : "#define X /* abc".toList.drop 10 = '/' :: '*' :: (' ' :: "abc".toList) := by
      decide
    rw [hdrop, show (10000 : Nat) = 9999 + 1 from rfl,
      readDefineGo_step_blockOpen 9999 (' ' :: "abc".toList) p.lines [] []]
    exact readDefineGo_bc_exhaust p.lines 9999 ' ' "abc".toList false false [] [] h1
      (by decide) (by omega)
  simp only [readDefine, hgo]

/-- Concrete instance of the amended claim C4: a one-line stream with no
`*/` is consumed whole and nothing is registered. -/
theorem readDefine_unterminated_comment_witness :
    readDefine ⟨["no end".toList], 0, []⟩ "X" 10 "#define X /* abc".toList
      = ⟨[], 2, []⟩ :=
  readDefine_unterminated_comment ⟨["no end".toList], 0, []⟩ (by decide) (by decide)

/-! ## Legacy provider: `get_completions` and `provideSignatureHelp`
(claims C7, C8, C10) -/

/-- A `vscode.TextDocument` as the legacy provider uses it: the string
`document.uri.toString()` yields, and the full text already split at
newlines (`document.getText().split("\\n")`), each line as its characters.
Queried positions are assumed to address an existing line (the source would
throw otherwise). -/
structure Document where
  uri : String
  lines : List (List Char)
  deriving DecidableEq, Repr

/-- JS `String.prototype.trim`: strip whitespace from both ends. -/
def trimJS (l : List Char) : List Char :=
  ((l.dropWhile Char.isWhitespace).reverse.dropWhile Char.isWhitespace).reverse

/-- The backward scan of `get_completions` classifying the cursor as a
method call: from the second-to-last character of the trimmed line, skip
identifier characters; report true exactly when the scan stops on `.`. -/
def isMethodScan (line : List Char) : Nat → Bool
  | 0 =>
      match line.get? 0 with
      | none => false
      | some ch => if wordChar ch then false else ch == '.'
  | i + 1 =>
      match line.get? (i + 1) with
      | none => false
      | some ch => if wordChar ch then isMethodScan line i else ch == '.'

/-- `get_completions(document, position)`: classify the cursor, map every
visible completion through `to_completion_item`, then `filter` by
method-ness — whose result the source DISCARDS (`items.filter(...)` without
assignment), returning the unfiltered list on both branches. -/
def get_completions (repo : Repo) (document : Document) (position : Position) :
    List CompletionItem :=
  let l := trimJS (document.lines.getD position.line [])
  let is_method := if l.length < 2 then false else isMethodScan l (l.length - 2)
  let items := (get_all_completions repo document.uri).map
    (fun c => c.to_completion_item document.uri)
  if is_method then
    let _ := items.filter (fun c => c.kind == CompletionItemKind.Method)
    items
  else
    let _ := items.filter (fun c => !(c.kind == CompletionItemKind.Method))
    items

/-- The discarded `filter` calls make `get_completions` the plain mapping of
all visible completions, whatever the classification. -/
theorem get_completions_eq_map (repo : Repo) (document : Document) (position : Position) :
    get_completions repo document position
      = (get_all_completions repo document.uri).map
          (fun c => c.to_completion_item document.uri) := by
  rw [get_completions]
  split
  · rfl
  · split <;> rfl

/-- The backward scan of `provideSignatureHelp` (its inner closure): walk
from the cursor column down to 0; before the first `(` is seen, count every
`,` and flip `end_parameters` at `(`; afterwards accumulate identifier
characters into the callable name until a non-identifier character stops
the walk.  An out-of-range read before the `(` matches neither `(` nor `,`
(JS indexing yields `undefined`); after the `(` the walk only visits
in-range indices, so the out-of-range case there (where the source would
throw) is unreachable and returns the accumulated state. -/
def sigScanGo (line : List Char) : Nat → Bool → List Char → Nat → (List Char × Nat)
  | 0, true, method, count =>
      match line.get? 0 with
      | none => (method, count)
      | some ch => if wordChar ch then (ch :: method, count) else (method, count)
  | 0, false, method, count =>
      match line.get? 0 with
      | some ',' => (method, count + 1)
      | _ => (method, count)
  | i + 1, true, method, count =>
      match line.get? (i + 1) with
      | none => (method, count)
      | some ch =>
          if wordChar ch then sigScanGo line i true (ch :: method) count
          else (method, count)
  | i + 1, false, method, count =>
      match line.get? (i + 1) with
      | some '(' => sigScanGo line i true method count
      | some ',' => sigScanGo line i false method (count + 1)
      | _ => sigScanGo line i false method count

/-- The same walk expressed over the reversed prefix of the line (the
characters from the start position down to column 0, in visiting order);
the index-based walk reduces to it. -/
def sigScanList : Bool → List Char → Nat → List Char → (List Char × Nat)
  | _, method, count, [] => (method, count)
  | true, method, count, ch :: rest =>
      if wordChar ch then sigScanList true (ch :: method) count rest
      else (method, count)
  | false, method, count, ch :: rest =>
      if ch = '(' then sigScanList true method count rest
      else if ch = ',' then sigScanList false method (count + 1) rest
      else sigScanList false method count rest

/-- The inner closure of `provideSignatureHelp`: `none` as first component
is the `method: undefined` early return when the character just before the
cursor is `)` (for column 0, `line[-1]` is `undefined` and never equals
`)`), else the backward walk from the cursor column. -/
def signatureScan (line : List Char) (character : Nat) : Option (List Char) × Nat :=
  if 0 < character ∧ line.get? (character - 1) = some ')' then (none, 0)
  else
    let r := sigScanGo line character false [] 0
    (some r.fst, r.snd)

/-- The `vscode.SignatureHelp` result object; `DefineCompletion` and friends
return `undefined` from `get_signature`, hence the `Option` entries. -/
structure SignatureHelp where
  signatures : List (Option SignatureInformation)
  activeParameter : Nat
  activeSignature : Nat
  deriving DecidableEq, Repr

/-- `provideSignatureHelp(document, position)`: run the backward scan, look
the resulting name up among all visible completions (an `undefined` name
matches no string name), and report the first match's signature with the
counted commas as active parameter — or an empty signature list. -/
def provideSignatureHelp (repo : Repo) (document : Document) (position : Position) :
    SignatureHelp :=
  let line := document.lines.getD position.line []
  let scanned := signatureScan line position.character
  let completions :=
    match scanned.fst with
    | none => []
    | some m => (get_all_completions repo document.uri).filter
        (fun (c : Completion) => c.name == String.mk m)
  match completions with
  | first :: _ => ⟨[first.get_signature], scanned.snd, 0⟩
  | [] => ⟨[], 0, 0⟩

/-- Follows the spec's words for claim C7 (comparison point of the
refutation): scanning backward from the cursor, find the nearest UNMATCHED
`(` — `)` increases the nesting depth, a matched `(` decreases it — and
count only the commas seen at depth zero; returns the unmatched paren's
index and that comma count. -/
def specSigFindParen (line : List Char) : Nat → Nat → Nat → Option (Nat × Nat)
  | 0, depth, count =>
      match line.get? 0 with
      | some '(' => if depth = 0 then some (0, count) else none
      | _ => none
  | i + 1, depth, count =>
      match line.get? (i + 1) with
      | some ')' => specSigFindParen line i (depth + 1) count
      | some '(' =>
          if depth = 0 then some (i + 1, count)
          else specSigFindParen line i (depth - 1) count
      | some ',' =>
          specSigFindParen line i depth (if depth = 0 then count + 1 else count)
      | _ => specSigFindParen line i depth count

/-- Follows the spec's words: the identifier characters accumulated
immediately before an index (exclusive), rightmost first in reading
order. -/
def identEndingAt (line : List Char) : Nat → List Char → List Char
  | 0, acc =>
      match line.get? 0 with
      | some ch => if wordChar ch then ch :: acc else acc
      | none => acc
  | j + 1, acc =>
      match line.get? (j + 1) with
      | some ch => if wordChar ch then identEndingAt line j (ch :: acc) else acc
      | none => acc

/-- Follows the spec's words for claim C7: no active signature when the
character before the cursor is `)`; otherwise the active-parameter index is
the number of UNMATCHED commas before the nearest UNMATCHED `(` and the
callable name is the identifier immediately before that paren. -/
def specSignatureScan (line : List Char) (character : Nat) : Option (List Char) × Nat :=
  if 0 < character ∧ line.get? (character - 1) = some ')' then (none, 0)
  else
    match specSigFindParen line character 0 0 with
    | some (p, count) =>
        (some (match p with
               | 0 => []
               | q + 1 => identEndingAt line q []), count)
    | none => (some [], 0)

/-- Claim C10 (confirmed): `get_completions` returns the same completion
list whether or not its backward scan classifies the cursor as a
method-call site.  Both branches call `filter` and discard the returned
array, so the result is always the full mapping of the visible completions
and does not depend on the position at all. -/
theorem get_completions_ignores_method_classification (repo : Repo) (document : Document)
    (position position' : Position) :
    get_completions repo document position
      = (get_all_completions repo document.uri).map
          (fun c => c.to_completion_item document.uri) ∧
    get_completions repo document position = get_completions repo document position' := by
  refine ⟨get_completions_eq_map repo document position, ?_⟩
  rw [get_completions_eq_map repo document position,
    get_completions_eq_map repo document position']

/-- Repository for the claim C7 refutation: one file declaring the
callables `f` and `g`. -/
def sigRepo : Repo :=
  [("file://m", ⟨[("f", .function "f" "f(a, b)" "fdoc" []),
                  ("g", .function "g" "g(x, y)" "gdoc" [])], [], "file://m"⟩)]

/-- Evaluation of the refutation repository's visible completions (the walk
`goIncl` is defined by well-founded recursion, so concrete runs are settled
through its unfolding equations rather than by kernel evaluation). -/
theorem sigRepo_all_completions :
    get_all_completions sigRepo "file://m"
      = [.function "f" "f(a, b)" "fdoc" [], .function "g" "g(x, y)" "gdoc" []] := by
  have hget : repoGet sigRepo "file://m"
      = some ⟨[("f", .function "f" "f(a, b)" "fdoc" []),
               ("g", .function "g" "g(x, y)" "gdoc" [])], [], "file://m"⟩ := rfl
  simp only [get_all_completions, get_included_files, hget, goIncl_eq_nil]
  decide

/-- Claim C7 counterexample: on `f(g(1,2), ` with the cursor at the end,
the nearest UNMATCHED `(` is `f`'s, with one unmatched comma before it —
the spec's scan yields name `f` and active-parameter index 1 — but the code
walks back to the FIRST `(` it meets (`g`'s, a matched one), counting every
comma on the way: the reported signature is `g`'s with active parameter 2. -/
theorem provideSignatureHelp_nested_counterexample :
    provideSignatureHelp sigRepo ⟨"file://m", ["f(g(1,2), ".toList]⟩ ⟨0, 10⟩
      = ⟨[some ⟨"g(x, y)", "gdoc", []⟩], 2, 0⟩ ∧
    signatureScan "f(g(1,2), ".toList 10 = (some "g".toList, 2) ∧
    specSignatureScan "f(g(1,2), ".toList 10 = (some "f".toList, 1) := by
  refine ⟨?_, by decide, by decide⟩
  simp only [provideSignatureHelp, sigRepo_all_completions]
  decide

/-- The index walk equals the list walk over the reversed prefix of the
line.  (The hypothesis records that the post-`(` phase only ever runs in
range, which holds from the entry state.) -/
theorem sigScanGo_eq_list (line : List Char) :
    ∀ (i : Nat) (endp : Bool) (method : List Char) (count : Nat),
      (endp = true → i < line.length) →
      sigScanGo line i endp method count
        = sigScanList endp method count ((line.take (i + 1)).reverse) := by
  intro i
  induction i with
  | zero =>
      intro endp method count hend
      rcases hg : line.get? 0 with _ | ch
      · have hnil : line = [] := by
          cases line with
          | nil => rfl
          | cons a t => simp at hg
        subst hnil
        cases endp with
        | true => simp at hend
        | false => simp [sigScanGo, sigScanList]
      · obtain ⟨t, ht⟩ : ∃ t, line = ch :: t := by
          cases hl : line with
          | nil => rw [hl] at hg; simp at hg
          | cons a t =>
              rw [hl] at hg
              simp at hg
              exact ⟨t, by rw [hg]⟩
        subst ht
        have htake : ((ch :: t).take 1).reverse = [ch] := by simp
        rw [htake]
        cases endp with
        | true =>
            by_cases hw : wordChar ch = true
            · simp [sigScanGo, sigScanList, hw]
            · simp [sigScanGo, sigScanList, hw]
        | false =>
            by_cases h1 : ch = '('
            · subst h1
              simp [sigScanGo, sigScanList]
            · by_cases h2 : ch = ','
              · subst h2
                simp [sigScanGo, sigScanList]
              · simp [sigScanGo, sigScanList, h1, h2]
  | succ j ih =>
      intro endp method count hend
      by_cases hlt : j + 1 < line.length
      · rcases hg : line.get? (j + 1) with _ | ch
        · rw [List.get?_eq_none] at hg
          omega
        · have hg2 := (List.get?_eq_getElem? line (j + 1)).symm.trans hg
          have htake : (line.take (j + 2)).reverse = ch :: (line.take (j + 1)).reverse := by
            rw [List.take_succ, hg2]
            simp
          rw [htake]
          cases endp with
          | true =>
              by_cases hw : wordChar ch = true
              · rw [show sigScanGo line (j + 1) true method count
                    = sigScanGo line j true (ch :: method) count by
                    simp [sigScanGo, hg2, hw]]
                rw [ih true (ch :: method) count (fun _ => by omega)]
                simp [sigScanList, hw]
              · simp [sigScanGo, sigScanList, hg2, hw]
          | false =>
              by_cases h1 : ch = '('
              · subst h1
                rw [show sigScanGo line (j + 1) false method count
                    = sigScanGo line j true method count by simp [sigScanGo, hg2]]
                rw [ih true method count (fun _ => by omega)]
                simp [sigScanList]
              · by_cases h2 : ch = ','
                · subst h2
                  rw [show sigScanGo line (j + 1) false method count
                      = sigScanGo line j false method (count + 1) by simp [sigScanGo, hg2]]
                  rw [ih false method (count + 1) (fun h => Bool.noConfusion h)]
                  simp [sigScanList]
                · rw [show sigScanGo line (j + 1) false method count
                      = sigScanGo line j false method count by simp [sigScanGo, hg2, h1, h2]]
                  rw [ih false method count (fun h => Bool.noConfusion h)]
                  simp [sigScanList, h1, h2]
      · have hg : line.get? (j + 1) = none := by
          rw [List.get?_eq_none]
          omega
        have hg2 := (List.get?_eq_getElem? line (j + 1)).symm.trans hg
        have htake : line.take (j + 2) = line.take (j + 1) := by
          rw [List.take_of_length_le (by omega), List.take_of_length_le (by omega)]
        cases endp with
        | true => exact absurd (hend rfl) hlt
        | false =>
            rw [htake, show sigScanGo line (j + 1) false method count
              = sigScanGo line j false method count by simp [sigScanGo, hg2]]
            exact ih false method count (fun h => Bool.noConfusion h)

/-- Phase 1 of the amended claim C7: scanning backward through an argument
region with no `(` counts every comma in it, whatever its parenthesis
nesting. -/
theorem sigScanList_args :
    ∀ (l : List Char), '(' ∉ l → ∀ (method : List Char) (count : Nat) (rest : List Char),
      sigScanList false method count (l ++ rest)
        = sigScanList false method (count + l.count ',') rest := by
  intro l
  induction l with
  | nil =>
      intro _ m c rest
      simp
  | cons a t ih =>
      intro h m c rest
      have ha : a ≠ '(' := fun he => h (he ▸ List.mem_cons_self a t)
      have ht : '(' ∉ t := fun he => h (List.mem_cons_of_mem a he)
      by_cases h2 : a = ','
      · subst h2
        rw [List.cons_append, show sigScanList false m c (',' :: (t ++ rest))
          = sigScanList false m (c + 1) (t ++ rest) by simp [sigScanList]]
        rw [ih ht m (c + 1) rest]
        have : c + 1 + t.count ',' = c + (',' :: t).count ',' := by
          simp [List.count_cons]
          omega
        rw [this]
      · rw [List.cons_append, show sigScanList false m c (a :: (t ++ rest))
          = sigScanList false m c (t ++ rest) by simp [sigScanList, ha, h2]]
        rw [ih ht m c rest]
        have : c + t.count ',' = c + (a :: t).count ',' := by
          simp [List.count_cons, h2]
        rw [this]

/-- Phase 3 of the amended claim C7: after the `(`, a run of identifier
characters is accumulated in reading order into the callable name. -/
theorem sigScanList_ident :
    ∀ (l : List Char), (∀ ch ∈ l, wordChar ch = true) →
      ∀ (method : List Char) (count : Nat) (rest : List Char),
        sigScanList true method count (l ++ rest)
          = sigScanList true (l.reverse ++ method) count rest := by
  intro l
  induction l with
  | nil =>
      intro _ m c rest
      simp
  | cons a t ih =>
      intro h m c rest
      have ha : wordChar a = true := h a (List.mem_cons_self a t)
      rw [List.cons_append, show sigScanList true m c (a :: (t ++ rest))
        = sigScanList true (a :: m) c (t ++ rest) by simp [sigScanList, ha]]
      rw [ih (fun x hx => h x (List.mem_cons_of_mem a hx)) (a :: m) c rest]
      simp

/-- Phase 4 of the amended claim C7: the walk stops at the first
non-identifier character before the name (or at the line start). -/
theorem sigScanList_stop :
    ∀ (p : List Char) (method : List Char) (count : Nat),
      (∀ ch, p.getLast? = some ch → wordChar ch = false) →
      sigScanList true method count p.reverse = (method, count) := by
  intro p m c h
  cases hp : p.reverse with
  | nil => simp [sigScanList]
  | cons a t =>
      have hlast : p.getLast? = some a := by
        rw [← List.head?_reverse, hp]
        rfl
      have hw := h a hlast
      simp [sigScanList, hw]

/-- Claim C7 amended (proved): the backward scan is not nesting-aware.  The
active-parameter index is the number of ALL commas — at any parenthesis
depth — between the cursor and the nearest `(` met scanning backward,
matched or not, and the callable name is the identifier immediately before
that `(`; a `)` immediately before the cursor yields no active signature,
as the claim states. -/
theorem signatureScan_amended :
    (∀ (l : List Char) (c : Nat), 0 < c → l.get? (c - 1) = some ')' →
        signatureScan l c = (none, 0)) ∧
    (∀ (p name args : List Char),
      name ≠ [] → (∀ ch ∈ name, wordChar ch = true) →
      (∀ ch, p.getLast? = some ch → wordChar ch = false) →
      '(' ∉ args → args.getLast? ≠ some ')' →
      signatureScan (p ++ name ++ '(' :: args) (p ++ name ++ '(' :: args).length
        = (some name, args.count ',')) := by
  constructor
  · intro l c hc hg
    rw [signatureScan, if_pos ⟨hc, hg⟩]
  · intro p name args hname hword hp hpar hlast
    have hsplit : p ++ name ++ '(' :: args = (p ++ name) ++ ('(' :: args) := by simp
    have hguard : ¬(0 < (p ++ name ++ '(' :: args).length ∧
        (p ++ name ++ '(' :: args).get? ((p ++ name ++ '(' :: args).length - 1)
          = some ')') := by
      rintro ⟨hpos, hgl⟩
      rw [List.get?_eq_getElem?, ← List.getLast?_eq_getElem?] at hgl
      rw [hsplit, List.getLast?_append_of_ne_nil (p ++ name) (List.cons_ne_nil '(' args)]
        at hgl
      cases hargs : args with
      | nil =>
          rw [hargs] at hgl
          simp at hgl
      | cons a args' =>
          rw [hargs, List.getLast?_cons_cons] at hgl
          exact hlast (hargs ▸ hgl)
    rw [signatureScan, if_neg hguard]
    have hbridge := sigScanGo_eq_list (p ++ name ++ '(' :: args)
      (p ++ name ++ '(' :: args).length false [] 0 (fun h => Bool.noConfusion h)
    rw [hbridge, List.take_of_length_le (by omega)]
    rw [show (p ++ name ++ '(' :: args).reverse
      = args.reverse ++ '(' :: (name.reverse ++ p.reverse) by simp [List.reverse_append]]
    rw [sigScanList_args args.reverse (by simpa using hpar) [] 0
      ('(' :: (name.reverse ++ p.reverse))]
    rw [show sigScanList false [] (0 + args.reverse.count ',')
        ('(' :: (name.reverse ++ p.reverse))
      = sigScanList true [] (0 + args.reverse.count ',') (name.reverse ++ p.reverse) by
        simp [sigScanList]]
    rw [sigScanList_ident name.reverse (fun ch hch => hword ch (List.mem_reverse.mp hch))
      [] (0 + args.reverse.count ',') p.reverse]
    rw [sigScanList_stop p (name.reverse.reverse ++ []) (0 + args.reverse.count ',') hp]
    simp [List.count_reverse]

/-- Concrete instances of the amended claim C7 at the spec's own examples:
`DoThing(1, 2, ` reports name `DoThing` with active parameter 2, and a `)`
immediately before the cursor reports no signature. -/
theorem signatureScan_amended_witness :
    signatureScan "DoThing(1, 2, ".toList 14 = (some "DoThing".toList, 2) ∧
    signatureScan "DoThing()".toList 9 = (none, 0) := by
  constructor
  · have h := signatureScan_amended.2 [] "DoThing".toList "1, 2, ".toList
      (by decide) (by decide) (by decide) (by decide) (by decide)
    have he : ([] ++ "DoThing".toList ++ '(' :: "1, 2, ".toList)
        = "DoThing(1, 2, ".toList := by decide
    rw [he] at h
    have hlen : ("DoThing(1, 2, ".toList).length = 14 := by decide
    have hc : ("1, 2, ".toList).count ',' = 2 := by decide
    rw [hlen, hc] at h
    exact h
  · exact signatureScan_amended.1 "DoThing()".toList 9 (by decide) (by decide)

/-! ## File-local filtering of Variable and Define items (claim C8) -/

/-- Repository for claim C8: `file://b` includes `file://a`, which declares
the define `FOO`. -/
def c8Repo : Repo :=
  [("file://a", ⟨[("FOO", .define "FOO")], [], "file://a"⟩),
   ("file://b", ⟨[], [⟨"file://a", false⟩], "file://b"⟩)]

/-- Evaluation of claim C8's repository: the completions visible from
`file://b` are exactly `file://a`'s define. -/
theorem c8Repo_all_completions :
    get_all_completions c8Repo "file://b" = [.define "FOO"] := by
  have hgb : repoGet c8Repo "file://b" = some ⟨[], [⟨"file://a", false⟩], "file://b"⟩ := rfl
  have hga : repoGet c8Repo "file://a"
      = some ⟨[("FOO", .define "FOO")], [], "file://a"⟩ := rfl
  have h1 : goIncl c8Repo 2 [⟨"file://a", false⟩] [] = some ["file://a"] := by
    rw [goIncl_eq_succ c8Repo 1 ⟨"file://a", false⟩ [] []
      ⟨[("FOO", .define "FOO")], [], "file://a"⟩ (by decide) hga]
    simp [goIncl_eq_nil]
  have hlen : c8Repo.length = 2 := rfl
  simp only [get_all_completions, get_included_files, hgb, hlen, h1]
  decide

/-- Claim C8 counterexample: the Define item `FOO`, local to `file://a`,
appears WITH ITS NAME in `file://b`'s completion list at a cursor that is
not a method-call site — `DefineCompletion.to_completion_item` performs no
file filtering at all. -/
theorem define_completes_in_other_file_counterexample :
    (⟨"FOO", none, none, .Variable, none⟩ : CompletionItem)
      ∈ get_completions c8Repo ⟨"file://b", ["FOO".toList]⟩ ⟨0, 3⟩ ∧
    isMethodScan (trimJS "FOO".toList) 1 = false ∧
    ("file://b" : String) ≠ "file://a" := by
  refine ⟨?_, by decide, by decide⟩
  rw [get_completions_eq_map]
  show _ ∈ (get_all_completions c8Repo "file://b").map _
  rw [c8Repo_all_completions]
  decide

/-- Concatenation membership through the legacy `reduce(concat)` fold. -/
theorem mem_foldl_append {α : Type} :
    ∀ (ls : List (List α)) (init : List α) (a : α),
      (a ∈ init ∨ ∃ l ∈ ls, a ∈ l) → a ∈ ls.foldl (fun x y => x ++ y) init := by
  intro ls
  induction ls with
  | nil =>
      intro init a h
      rcases h with h | ⟨l, hl, _⟩
      · exact h
      · cases hl
  | cons b t ih =>
      intro init a h
      refine ih (init ++ b) a ?_
      rcases h with h | ⟨l, hl, ha⟩
      · exact Or.inl (List.mem_append_left b h)
      · rcases List.mem_cons.mp hl with rfl | hlt
        · exact Or.inl (List.mem_append_right init ha)
        · exact Or.inr ⟨l, hlt, ha⟩

/-- Claim C8 amended (proved): Variable items ARE file-filtered, but only by
blanking their label — an other-file variable is emitted as an empty-label
entry, so its name never completes elsewhere — while Define items are NOT
file-filtered: a define parsed from any visible file (the requesting file or
a transitive include) appears with its name in the returned list. -/
theorem variable_define_filtering_amended :
    (∀ (n vf f : String), vf ≠ f →
        Completion.to_completion_item (.var n vf) f = ⟨"", none, none, .Variable, none⟩) ∧
    (∀ (repo : Repo) (document : Document) (position : Position) (key n fA : String)
        (fc : FileCompletions),
      repoGet repo fA = some fc → (key, Completion.define n) ∈ fc.completions →
      (fA = document.uri ∨ transitiveIncludes repo document.uri fA) →
      (⟨n, none, none, .Variable, none⟩ : CompletionItem)
        ∈ get_completions repo document position) := by
  constructor
  · intro n vf f hne
    simp only [Completion.to_completion_item]
    rw [if_neg (fun h => hne (beq_iff_eq.mp h).symm)]
  · intro repo document position key n fA fc hget hmem hreach
    rw [get_completions_eq_map]
    have hin : Completion.define n ∈ get_file_completions repo fA := by
      rw [get_file_completions, hget]
      exact List.mem_map_of_mem Prod.snd hmem
    have hcomp : Completion.define n ∈ get_all_completions repo document.uri := by
      cases hgd : repoGet repo document.uri with
      | none =>
          rcases hreach with heq | hr
          · rw [heq, hgd] at hget
            cases hget
          · rcases Relation.TransGen.head'_iff.mp hr with ⟨v, ⟨fc', hg', _⟩, _⟩
            rw [hgd] at hg'
            cases hg'
      | some fcd =>
          obtain ⟨F, hF, _, hmemF⟩ := goIncl_top repo document.uri fcd hgd
          have hfA : fA ∈ (if F.contains document.uri = true then F
              else F ++ [document.uri]) := by
            rcases hreach with heq | hr
            · by_cases hFc : F.contains document.uri = true
              · rw [if_pos hFc, heq]
                exact List.elem_iff.mp hFc
              · rw [if_neg hFc, heq]
                exact List.mem_append_right F (List.mem_singleton.mpr rfl)
            · have hf : fA ∈ F := (hmemF fA).mpr hr
              by_cases hFc : F.contains document.uri = true
              · rw [if_pos hFc]
                exact hf
              · rw [if_neg hFc]
                exact List.mem_append_left [document.uri] hf
          have hgif : get_included_files repo fcd [] = F := by
            rw [get_included_files, hF]
            rfl
          simp only [get_all_completions, hgd, hgif]
          exact mem_foldl_append _ [] _
            (Or.inr ⟨get_file_completions repo fA,
              List.mem_map_of_mem (get_file_completions repo) hfA, hin⟩)
    exact List.mem_map.mpr ⟨Completion.define n, hcomp, rfl⟩

/-- Concrete instances of the amended claim C8: an other-file variable is
blanked, while `file://a`'s define completes in `file://b`. -/
theorem variable_define_filtering_amended_witness :
    Completion.to_completion_item (.var "v" "file://a") "file://b"
      = ⟨"", none, none, .Variable, none⟩ ∧
    (⟨"FOO", none, none, .Variable, none⟩ : CompletionItem)
      ∈ get_completions c8Repo ⟨"file://b", ["x".toList]⟩ ⟨0, 1⟩ := by
  constructor
  · exact variable_define_filtering_amended.1 "v" "file://a" "file://b" (by decide)
  · exact variable_define_filtering_amended.2 c8Repo ⟨"file://b", ["x".toList]⟩ ⟨0, 1⟩
      "FOO" "FOO" "file://a" ⟨[("FOO", .define "FOO")], [], "file://a"⟩ rfl
      (by decide)
      (Or.inr (Relation.TransGen.single
        ⟨⟨[], [⟨"file://a", false⟩], "file://b"⟩, rfl, by decide⟩))

/-! ## Items-based provider (claims C5, C6, C9)

`SPItem` embeds the item objects of the newer provider; a Method/Property
item's `parent` is an object reference to its enclosing methodmap or
enum-struct item (itself an `SPItem`), embedded as a nested value.  Every
embedded item carries a `fullRange` (as the items inspected by these
functions do in the source; `getLastEnumStructNameOrMethodMap` additionally
guards `fullRange != undefined`, vacuous here).  `vtype` is the declared
type name a Variable item carries, used by the spec-modelled
`getTypeOfVariable`. -/

inductive SPItem where
  | mk (name : String) (kind : CompletionItemKind) (filePath : String)
       (fullRange : Range) (detail : String) (vtype : String)
       (parent : Option SPItem)

/-- The `name` field. -/
def SPItem.name : SPItem → String
  | .mk n _ _ _ _ _ _ => n

/-- The `kind` field. -/
def SPItem.kind : SPItem → CompletionItemKind
  | .mk _ k _ _ _ _ _ => k

/-- The `filePath` field. -/
def SPItem.filePath : SPItem → String
  | .mk _ _ f _ _ _ _ => f

/-- The `fullRange` field. -/
def SPItem.fullRange : SPItem → Range
  | .mk _ _ _ r _ _ _ => r

/-- The `detail` field (raw signature text). -/
def SPItem.detail : SPItem → String
  | .mk _ _ _ _ d _ _ => d

/-- The declared-type field of a Variable item. -/
def SPItem.vtype : SPItem → String
  | .mk _ _ _ _ _ t _ => t

/-- The `parent` object reference. -/
def SPItem.parent : SPItem → Option SPItem
  | .mk _ _ _ _ _ _ p => p

/-- Structural equality of items (object identity of the source's item
references is embedded as value equality). -/
def SPItem.beq : SPItem → SPItem → Bool
  | .mk n1 k1 f1 r1 d1 t1 none, .mk n2 k2 f2 r2 d2 t2 none =>
      n1 == n2 && k1 == k2 && f1 == f2 && r1 == r2 && d1 == d2 && t1 == t2
  | .mk n1 k1 f1 r1 d1 t1 (some a), .mk n2 k2 f2 r2 d2 t2 (some b) =>
      n1 == n2 && k1 == k2 && f1 == f2 && r1 == r2 && d1 == d2 && t1 == t2 &&
        SPItem.beq a b
  | _, _ => false

theorem SPItem.beq_iff : ∀ a b : SPItem, SPItem.beq a b = true ↔ a = b := by
  intro a b
  induction a, b using SPItem.beq.induct with
  | case1 n1 k1 f1 r1 d1 t1 n2 k2 f2 r2 d2 t2 =>
      simp [SPItem.beq, and_assoc]
  | case2 n1 k1 f1 r1 d1 t1 a n2 k2 f2 r2 d2 t2 b ih =>
      simp [SPItem.beq, ih, and_assoc]
  | case3 t x h1 h2 =>
      cases t with
      | mk n1 k1 f1 r1 d1 t1 p1 =>
          cases x with
          | mk n2 k2 f2 r2 d2 t2 p2 =>
              cases p1 with
              | none =>
                  cases p2 with
                  | none => exact (h1 n1 k1 f1 r1 d1 t1 n2 k2 f2 r2 d2 t2 rfl rfl).elim
                  | some b => simp [SPItem.beq]
              | some a =>
                  cases p2 with
                  | none => simp [SPItem.beq]
                  | some b =>
                      exact (h2 n1 k1 f1 r1 d1 t1 a n2 k2 f2 r2 d2 t2 b rfl rfl).elim

instance : DecidableEq SPItem := fun a b => decidable_of_iff _ (SPItem.beq_iff a b)

/-- A `vscode.TextDocument` on the items-based side: `document.uri`
(toString form, the repository key), `document.uri.fsPath`, and the text as
lines (`document.lineAt(position.line).text`). -/
structure NDocument where
  uri : String
  fsPath : String
  lines : List (List Char)

/-- `getLastFunc(position, document, allItems)`: the FIRST Function/Method
item, in item order, of the document's file whose `fullRange` contains the
position. -/
def getLastFunc (position : Position) (document : NDocument)
    (allItems : List SPItem) : Option SPItem :=
  allItems.find? (fun e =>
    (e.kind == CompletionItemKind.Function || e.kind == CompletionItemKind.Method) &&
    e.filePath == document.fsPath && e.fullRange.contains position)

/-- `getLastEnumStructNameOrMethodMap(position, filePath, allItems)`: the
first Struct/Class item of the file whose `fullRange` contains the
position.  (The source also guards `fullRange != undefined`; every embedded
item carries one, so the guard is vacuous here.) -/
def getLastEnumStructNameOrMethodMap (position : Position) (filePath : String)
    (allItems : List SPItem) : Option SPItem :=
  allItems.find? (fun e =>
    (e.kind == CompletionItemKind.Struct || e.kind == CompletionItemKind.Class) &&
    e.filePath == filePath && e.fullRange.contains position)

/-- The test `/\bstatic\b[^\(]*\(/.test(item.detail)`: some occurrence of
the word `static` (word boundaries on both sides) followed, before any
other `(`, by a `(`. -/
def staticHere (prev : Option Char) (s : List Char) : Bool :=
  decide ((match prev with | none => true | some c => !wordChar c) = true ∧
    s.take 6 = "static".toList ∧
    (match s.drop 6 with
     | c :: rest => !wordChar c && (c :: rest).contains '('
     | [] => false) = true)

/-- Scan every starting position of the detail text for the marker. -/
def staticMarkerGo (prev : Option Char) : List Char → Bool
  | [] => staticHere prev []
  | c :: rest => staticHere prev (c :: rest) || staticMarkerGo (some c) rest

/-- Entry point of the static-marker regex embedding. -/
def staticMarker (s : List Char) : Bool := staticMarkerGo none s

/-- Modelled from the spec: the per-item-kind `toCompletionItem(lastFunc)`
implementations live in the `Backend/Items` files, which are not under
`src/`; the spec describes a completion entry as "name + kind + detail".
The modelled function is total, so the source's `delete undefined` and
trailing `filter` are no-ops in the embedding. -/
def SPItem.toCompletionItem (item : SPItem) (lastFunc : Option SPItem) : CompletionItem :=
  ⟨item.name, none, none, item.kind, some item.detail⟩

/-- `getMethodItems(allItems, variableTypes, isMethodMap, lastFunc)`: keep
the Method/Property items whose `parent` reference is one of the receiver's
types, excluding items that are themselves one of those type entries, and
keeping only those whose static marker agrees with `isMethodMap`.  (The JS
`Set` receives freshly allocated objects, so it never deduplicates; the
`try/catch` cannot fire in the pure embedding.) -/
def getMethodItems (allItems : List SPItem) (variableTypes : List SPItem)
    (isMethodMap : Bool) (lastFunc : Option SPItem) : List CompletionItem :=
  allItems.foldl
    (fun acc item =>
      if (item.kind == CompletionItemKind.Method ||
            item.kind == CompletionItemKind.Property) &&
          (match item.parent with
           | some p => variableTypes.contains p
           | none => false) &&
          !(variableTypes.contains item) &&
          (isMethodMap == staticMarker item.detail.toList) then
        acc ++ [item.toCompletionItem lastFunc]
      else acc)
    []

/-- `getNonMethodItems(allItems, lastFunc)`: every item that is not a
Method/Property. -/
def getNonMethodItems (allItems : List SPItem) (lastFunc : Option SPItem) :
    List CompletionItem :=
  allItems.foldl
    (fun acc item =>
      if !(item.kind == CompletionItemKind.Method ||
           item.kind == CompletionItemKind.Property) then
        acc ++ [item.toCompletionItem lastFunc]
      else acc)
    []

/-- Modelled from the spec: `isMethodCallSite` (`spUtils.ts` is not under
`src/`): scanning backward from the cursor, skip identifier characters and
report true exactly when the scan lands on a `.`. -/
def isMethodCallGo (line : List Char) : Nat → Bool
  | 0 =>
      match line.get? 0 with
      | none => false
      | some ch => if wordChar ch then false else ch == '.'
  | i + 1 =>
      match line.get? (i + 1) with
      | none => false
      | some ch => if wordChar ch then isMethodCallGo line i else ch == '.'

/-- Modelled from the spec: entry point of `isMethodCall(line, position)`. -/
def isMethodCall (line : List Char) (position : Position) : Bool :=
  match position.character with
  | 0 => false
  | c + 1 => isMethodCallGo line c

/-- Modelled from the spec: the index of the method-call dot reached by
skipping identifier characters backward from the cursor. -/
def findDotIndex (line : List Char) : Nat → Option Nat
  | 0 =>
      match line.get? 0 with
      | none => none
      | some ch =>
          if wordChar ch then none else if ch == '.' then some 0 else none
  | i + 1 =>
      match line.get? (i + 1) with
      | none => none
      | some ch =>
          if wordChar ch then findDotIndex line i
          else if ch == '.' then some (i + 1) else none

/-- Modelled from the spec: the identifier run ending at an index. -/
def receiverWord (line : List Char) : Nat → List Char → List Char
  | 0, acc =>
      match line.get? 0 with
      | none => acc
      | some ch => if wordChar ch then ch :: acc else acc
  | i + 1, acc =>
      match line.get? (i + 1) with
      | none => acc
      | some ch => if wordChar ch then receiverWord line i (ch :: acc) else acc

/-- Modelled from the spec: `getTypeOfVariable`
(`spItemsPropertyGetters.ts` is not under `src/`).  Extract the receiver
identifier before the method-call dot; its declared type is the receiver
word itself when that names a methodmap (static access through the type
name), else the `type` of the nearest Variable declaration with that name;
unresolvable receivers yield an unmatchable type name. -/
def getTypeOfVariable (line : List Char) (position : Position)
    (allItems : List SPItem) (lastFunc lastES : Option SPItem) :
    String × List String :=
  match (match position.character with
         | 0 => none
         | c + 1 => findDotIndex line c) with
  | none => ("", [])
  | some 0 => ("", [""])
  | some (d + 1) =>
      let w : String := ⟨receiverWord line d []⟩
      let words := [w]
      if (allItems.find? (fun e =>
            e.kind == CompletionItemKind.Class && e.name == w)).isSome then
        (w, words)
      else
        match allItems.find? (fun e =>
            e.kind == CompletionItemKind.Variable && e.name == w) with
        | some v => (v.vtype, words)
        | none => ("", words)

/-- Modelled from the spec: `getAllInheritances` walks base-type links from
the item outward collecting each ancestor.  Parents are nested values in
the embedding, so the chain is finite and the spec's visited-set cycle
guard can never fire. -/
def getAllInheritances : SPItem → List SPItem → List SPItem
  | .mk n k f r d t none, _ => [.mk n k f r d t none]
  | .mk n k f r d t (some p), allItems =>
      .mk n k f r d t (some p) :: getAllInheritances p allItems

/-- Modelled from the spec: the `ItemsRepository` aggregates the items
visible from each file (`spItemsRepository.ts` is not under `src/`); the
embedding carries the aggregated per-file views that
`getAllItems(document.uri)` returns. -/
structure ItemsRepository where
  views : List (String × List SPItem)

/-- Modelled from the spec: `getAllItems(uri)` — the aggregated visible
items of the file, empty for a file never indexed. -/
def ItemsRepository.getAllItems (itemsRepo : ItemsRepository) (uri : String) :
    List SPItem :=
  match itemsRepo.views.find? (fun e => e.fst == uri) with
  | some e => e.snd
  | none => []

/-- `getCompletionListFromPosition(itemsRepo, document, position)`.  The
source's guard `allItems === []` compares by object reference and never
succeeds, so it is omitted.  When the receiver's resolved type name matches
no Class/Struct item, the source dereferences `variableTypeItem.kind` on
`undefined` and throws — embedded as `Except.error`. -/
def getCompletionListFromPosition (itemsRepo : ItemsRepository)
    (document : NDocument) (position : Position) :
    Except String (List CompletionItem) :=
  let allItems := itemsRepo.getAllItems document.uri
  let line := document.lines.getD position.line []
  let isMethod := isMethodCall line position
  let lastFunc := getLastFunc position document allItems
  if !isMethod then
    .ok (getNonMethodItems allItems lastFunc)
  else
    let lastES := getLastEnumStructNameOrMethodMap position document.fsPath allItems
    let tv := getTypeOfVariable line position allItems lastFunc lastES
    match allItems.find? (fun e =>
        (e.kind == CompletionItemKind.Class ||
         e.kind == CompletionItemKind.Struct) && e.name == tv.fst) with
    | none => .error "TypeError: cannot read property kind of undefined"
    | some variableTypeItem =>
        let variableTypes :=
          if variableTypeItem.kind == CompletionItemKind.Class then
            getAllInheritances variableTypeItem allItems
          else [variableTypeItem]
        let isMethodMap := tv.snd.length == 1 &&
          (allItems.find? (fun e =>
            e.name == tv.snd.headD "" &&
            e.kind == CompletionItemKind.Class)).isSome
        .ok (getMethodItems allItems variableTypes isMethodMap lastFunc)

/-! ## Claim C5: `getLastFunc` and innermost containment -/

/-- The containment predicate of `getLastFunc` (named for the spec-side
statements): a Function/Method item of the document's file whose
`fullRange` contains the position. -/
def isCallableContaining (position : Position) (document : NDocument)
    (e : SPItem) : Bool :=
  (e.kind == CompletionItemKind.Function || e.kind == CompletionItemKind.Method) &&
  e.filePath == document.fsPath && e.fullRange.contains position

theorem getLastFunc_eq_find (position : Position) (document : NDocument)
    (allItems : List SPItem) :
    getLastFunc position document allItems
      = allItems.find? (fun e => isCallableContaining position document e) := rfl

/-- `r` lies inside `rOuter` (both endpoints contained). -/
def rangeSubset (r rOuter : Range) : Bool :=
  rOuter.contains r.start && rOuter.contains r.stop

/-- Follows the spec's words: the innermost containing callable — a
containing Function/Method item whose `fullRange` is contained in every
other containing item's `fullRange`. -/
def isInnermostCallable (position : Position) (document : NDocument)
    (items : List SPItem) (e : SPItem) : Prop :=
  e ∈ items ∧ isCallableContaining position document e = true ∧
  ∀ e' ∈ items, isCallableContaining position document e' = true →
    rangeSubset e.fullRange e'.fullRange = true

instance (position : Position) (document : NDocument) (items : List SPItem)
    (e : SPItem) : Decidable (isInnermostCallable position document items e) := by
  unfold isInnermostCallable
  infer_instance

/-- Reflexivity of the position order. -/
theorem isBeforeOrEqual_refl (a : Position) : a.isBeforeOrEqual a = true := by
  simp [Position.isBeforeOrEqual]

/-- Transitivity of the position order. -/
theorem isBeforeOrEqual_trans {a b c : Position} (hab : a.isBeforeOrEqual b = true)
    (hbc : b.isBeforeOrEqual c = true) : a.isBeforeOrEqual c = true := by
  simp only [Position.isBeforeOrEqual, Bool.or_eq_true, Bool.and_eq_true,
    decide_eq_true_eq, beq_iff_eq] at hab hbc ⊢
  omega

/-- A range containing some position contains its own endpoints. -/
theorem rangeSubset_self {r : Range} {p : Position} (h : r.contains p = true) :
    rangeSubset r r = true := by
  simp only [Range.contains, Bool.and_eq_true] at h
  simp only [rangeSubset, Range.contains, Bool.and_eq_true]
  exact ⟨⟨isBeforeOrEqual_refl _, isBeforeOrEqual_trans h.1 h.2⟩,
    ⟨isBeforeOrEqual_trans h.1 h.2, isBeforeOrEqual_refl _⟩⟩

/-- `find?` returns the unique element satisfying the predicate. -/
theorem find?_eq_some_of_unique {α : Type} (p : α → Bool) :
    ∀ (l : List α) (e : α), e ∈ l → p e = true → (∀ x ∈ l, p x = true → x = e) →
      l.find? p = some e := by
  intro l
  induction l with
  | nil =>
      intro e he
      cases he
  | cons x t ih =>
      intro e he hp huniq
      cases hx : p x with
      | true =>
          rw [List.find?_cons_of_pos t hx]
          rw [huniq x (List.mem_cons_self x t) hx]
      | false =>
          rw [List.find?_cons_of_neg t (by simp [hx])]
          have he' : e ∈ t := by
            rcases List.mem_cons.mp he with rfl | h
            · rw [hp] at hx
              cases hx
            · exact h
          exact ih e he' hp (fun y hy hpy => huniq y (List.mem_cons_of_mem x hy) hpy)

/-- An enclosing function item spanning lines 0–10 of file `f`. -/
def outerFn : SPItem := .mk "outer" .Function "f" ⟨⟨0, 0⟩, ⟨10, 0⟩⟩ "" "" none

/-- A nested function item spanning lines 2–3 of file `f`. -/
def innerFn : SPItem := .mk "inner" .Function "f" ⟨⟨2, 0⟩, ⟨3, 0⟩⟩ "" "" none

/-- The document of file `f`. -/
def c5Doc : NDocument := ⟨"file://f", "f", []⟩

/-- Claim C5 counterexample: with the outer item listed first and the
cursor inside both, `getLastFunc` returns the OUTER item, not the
innermost one. -/
theorem getLastFunc_not_innermost :
    getLastFunc ⟨2, 5⟩ c5Doc [outerFn, innerFn] = some outerFn ∧
    isInnermostCallable ⟨2, 5⟩ c5Doc [outerFn, innerFn] innerFn ∧
    ¬ isInnermostCallable ⟨2, 5⟩ c5Doc [outerFn, innerFn] outerFn ∧
    outerFn ≠ innerFn :=
  ⟨by decide, by decide, by decide, by decide⟩

/-- Claim C5 amended (proved): `getLastFunc` returns the FIRST
Function/Method item in item-list order of the queried file whose
`fullRange` contains the position — not necessarily the innermost one —
and `undefined` exactly when no such item exists; when exactly one item
contains the position, it is returned and is trivially the innermost. -/
theorem getLastFunc_first_containing (position : Position) (document : NDocument)
    (items : List SPItem) :
    (getLastFunc position document items = none ↔
      ∀ e ∈ items, isCallableContaining position document e = false) ∧
    (∀ e, getLastFunc position document items = some e →
      e ∈ items ∧ isCallableContaining position document e = true) ∧
    (∀ e ∈ items, isCallableContaining position document e = true →
      (∀ e' ∈ items, isCallableContaining position document e' = true → e' = e) →
      getLastFunc position document items = some e ∧
      isInnermostCallable position document items e) := by
  refine ⟨?_, ?_, ?_⟩
  · rw [getLastFunc_eq_find, List.find?_eq_none]
    constructor
    · intro h e he
      have h2 := h e he
      cases hb : isCallableContaining position document e with
      | false => rfl
      | true => exact absurd hb h2
    · intro h e he
      rw [h e he]
      exact fun hc => Bool.false_ne_true hc
  · intro e he
    rw [getLastFunc_eq_find] at he
    exact ⟨List.mem_of_find?_eq_some he, List.find?_some he⟩
  · intro e he hpe huniq
    have hfind : items.find? (fun x => isCallableContaining position document x) = some e :=
      find?_eq_some_of_unique _ items e he hpe huniq
    refine ⟨by rw [getLastFunc_eq_find]; exact hfind, he, hpe, ?_⟩
    intro e' he' hpe'
    rw [huniq e' he' hpe']
    have hcont : e.fullRange.contains position = true := by
      have h2 := hpe
      simp only [isCallableContaining, Bool.and_eq_true] at h2
      exact h2.2
    exact rangeSubset_self hcont

/-- Concrete instance of the amended claim C5: a single containing item is
returned and is the innermost. -/
theorem getLastFunc_first_containing_witness :
    getLastFunc ⟨2, 5⟩ c5Doc [innerFn] = some innerFn ∧
    isInnermostCallable ⟨2, 5⟩ c5Doc [innerFn] innerFn :=
  (getLastFunc_first_containing ⟨2, 5⟩ c5Doc [innerFn]).2.2 innerFn
    (by decide) (by decide) (by decide)

/-! ## Claim C6: the method-completion filter -/

/-- Follows the spec's words: a returned method completion is a
Method/Property item whose parent lies in the receiver type's inheritance
chain, is not itself one of the chain's type entries (the type's own
constructor-like entry), and whose static marker in `detail` agrees with
whether the receiver expression is the type name itself. -/
def specMethodCompletionPred (variableTypes : List SPItem) (isMethodMap : Bool)
    (item : SPItem) : Prop :=
  (item.kind = CompletionItemKind.Method ∨ item.kind = CompletionItemKind.Property) ∧
  (∃ p, item.parent = some p ∧ p ∈ variableTypes) ∧
  item ∉ variableTypes ∧
  (isMethodMap = true ↔ staticMarker item.detail.toList = true)

instance instDecidableSpecMethodPred (variableTypes : List SPItem) (isMethodMap : Bool)
    (item : SPItem) : Decidable (specMethodCompletionPred variableTypes isMethodMap item) := by
  unfold specMethodCompletionPred
  cases hp : item.parent with
  | none =>
      apply isFalse
      rintro ⟨-, ⟨p, hpp, -⟩, -, -⟩
      cases hpp
  | some p =>
      refine decidable_of_iff
        ((item.kind = CompletionItemKind.Method ∨ item.kind = CompletionItemKind.Property) ∧
         p ∈ variableTypes ∧ item ∉ variableTypes ∧
         (isMethodMap = true ↔ staticMarker item.detail.toList = true)) ?_
      constructor
      · rintro ⟨h1, h2, h3, h4⟩
        exact ⟨h1, ⟨p, rfl, h2⟩, h3, h4⟩
      · rintro ⟨h1, ⟨q, hq, h2⟩, h3, h4⟩
        injection hq with he
        subst he
        exact ⟨h1, h2, h3, h4⟩

/-- Accumulating `foldl` form of filter-then-map. -/
theorem foldl_append_filter_map {α β : Type} (p : α → Bool) (g : α → β) :
    ∀ (l : List α) (acc : List β),
      l.foldl (fun acc item => if p item then acc ++ [g item] else acc) acc
        = acc ++ (l.filter p).map g := by
  intro l
  induction l with
  | nil =>
      intro acc
      simp
  | cons x t ih =>
      intro acc
      cases hx : p x with
      | true => simp [List.filter_cons, hx, ih]
      | false => simp [List.filter_cons, hx, ih]

/-- The source's boolean filter condition coincides with the spec-side
predicate. -/
theorem methodItemCond_iff (variableTypes : List SPItem) (isMethodMap : Bool)
    (item : SPItem) :
    ((item.kind == CompletionItemKind.Method ||
        item.kind == CompletionItemKind.Property) &&
      (match item.parent with
       | some p => variableTypes.contains p
       | none => false) &&
      !(variableTypes.contains item) &&
      (isMethodMap == staticMarker item.detail.toList)) = true
    ↔ specMethodCompletionPred variableTypes isMethodMap item := by
  unfold specMethodCompletionPred
  cases hp : item.parent with
  | none =>
      simp only [hp, Bool.and_eq_true, Bool.or_eq_true, beq_iff_eq, Bool.not_eq_true']
      constructor
      · rintro ⟨⟨⟨-, h⟩, -⟩, -⟩
        exact absurd h (by decide)
      · rintro ⟨-, ⟨p, hpp, -⟩, -, -⟩
        cases hpp
  | some p =>
      simp only [hp, Bool.and_eq_true, Bool.or_eq_true, beq_iff_eq, Bool.not_eq_true',
        List.elem_iff]
      constructor
      · rintro ⟨⟨⟨h1, h2⟩, h3⟩, h4⟩
        refine ⟨h1, ⟨p, rfl, h2⟩, ?_, ?_⟩
        · intro hmem
          have hc : variableTypes.contains item = true := by
            simpa [List.contains] using List.elem_iff.mpr hmem
          rw [hc] at h3
          cases h3
        · rw [h4]
      · rintro ⟨h1, ⟨q, hq, h2⟩, h3, h4⟩
        injection hq with he
        subst he
        refine ⟨⟨⟨h1, h2⟩, ?_⟩, ?_⟩
        · cases hc : variableTypes.contains item with
          | false => rfl
          | true => exact absurd (List.elem_iff.mp hc) h3
        · exact Bool.eq_iff_iff.mpr h4

/-- Claim C6 (confirmed): for every item table, receiver type chain and
call-shape flag, `getMethodItems` returns exactly the completions of the
items satisfying the spec-side predicate — Method/Property items whose
parent lies in the chain, excluding the chain's own type entries
(constructor-like entries) and items whose static marker disagrees with
whether the receiver is the type name itself. -/
theorem getMethodItems_eq_spec (allItems variableTypes : List SPItem)
    (isMethodMap : Bool) (lastFunc : Option SPItem) :
    getMethodItems allItems variableTypes isMethodMap lastFunc
      = (allItems.filter (fun item =>
            decide (specMethodCompletionPred variableTypes isMethodMap item))).map
          (fun item => item.toCompletionItem lastFunc) := by
  rw [getMethodItems,
    foldl_append_filter_map
      (fun item =>
        (item.kind == CompletionItemKind.Method ||
           item.kind == CompletionItemKind.Property) &&
        (match item.parent with
         | some p => variableTypes.contains p
         | none => false) &&
        !(variableTypes.contains item) &&
        (isMethodMap == staticMarker item.detail.toList))
      (fun item => item.toCompletionItem lastFunc) allItems [],
    List.nil_append]
  congr 1
  apply List.filter_congr
  intro item _
  rw [Bool.eq_iff_iff, decide_eq_true_eq]
  exact methodItemCond_iff variableTypes isMethodMap item

/-! ## Claim C9: the undefined dereference in `getCompletionListFromPosition` -/

/-- A file whose only item is the variable `obj` of declared type
`Unknown`, which names no methodmap or enum-struct. -/
def c9Items : List SPItem :=
  [.mk "obj" .Variable "f" ⟨⟨0, 0⟩, ⟨0, 0⟩⟩ "" "Unknown" none]

/-- The repository holding that file's view. -/
def c9Repo : ItemsRepository := ⟨[("file://f", c9Items)]⟩

/-- The document whose line reads `obj.`. -/
def c9Doc : NDocument := ⟨"file://f", "f", ["obj.".toList]⟩

/-- Claim C9 (confirmed): at the method-call site `obj.` whose receiver
resolves to the type name `Unknown`, matched by no visible Class/Struct
item, `getCompletionListFromPosition` dereferences the undefined lookup
result and throws instead of returning an empty list — the function is not
total. -/
theorem getCompletionListFromPosition_throws :
    getCompletionListFromPosition c9Repo c9Doc ⟨0, 4⟩
      = .error "TypeError: cannot read property kind of undefined" := by
  rfl

end SP
